import Mathlib

/-!
Verification development for the numerical core of the graphing engine:
the precision layer (`PrecisionManager`), the adaptive curve sampler
(`AdaptiveSampler.sample`), the viewport (`GraphViewport`), the coordinate
transformer (`CoordinateTransformer`), the operation-budget circuit breaker
(`CircuitBreaker`) and the marching-squares contour extractor
(`marchingSquares`).

Modelling conventions (shallow embedding):
* JavaScript numbers are embedded as exact rationals `ℚ`.  A `ℚ` value is
  always finite, so the `Number.isFinite` operand guards of the source never
  fire on values of the model; the guard on *results* is kept, because a
  finite-operand operation can still overflow the IEEE double range: an
  operation fails (`DeterminismError` in the source) when the exact result
  reaches the double overflow threshold `2^1024 - 2^970` (the smallest
  magnitude that `Decimal.toNumber` turns into `Infinity`).
* The decimal-mode normalisation step of the source (quantisation to 30
  decimal places, round half to even) is the identity on every value these
  developments produce, and is modelled as the identity.
* The global precision configuration is modelled at its default values
  (`epsilon = 2.220446049250313e-16`, decimal mode).
* A user-supplied evaluator is a function `ℚ → Option ℚ`; `none` models both
  a thrown exception and a `NaN`/non-finite return (the sampler's
  `safeEvaluate` and the contour extractor's `try`/`isFinite` wrapper merge
  the two cases at exactly this boundary).
* `Array.prototype.sort(cmp)` (required stable by ECMAScript) is modelled as
  a stable top-down merge sort driven by the comparator.
-/

/- Core marks the rational arithmetic operations irreducible, which would
prevent concrete runs of the models below from being evaluated by `decide`;
restore the default reducibility. -/
set_option allowUnsafeReducibility true in
attribute [semireducible] Rat.add Rat.sub Rat.mul Rat.div Rat.inv Rat.neg Rat.normalize

/-- Error raised by the precision layer (`DeterminismError` in the source):
either a non-finite result (overflow) or a division by a number closer to
zero than the configured epsilon. -/
inductive DetErr where
  | overflow : DetErr
  | divNearZero : DetErr
deriving DecidableEq, Repr

/-- A point `{x, y}`. -/
structure Pt where
  x : ℚ
  y : ℚ
deriving DecidableEq, Repr

namespace PM

/-- `PrecisionManager.EPSILON_FLOAT64`, the default comparison epsilon of the
global precision configuration. -/
def eps : ℚ := 2220446049250313 / 10000000000000000000000000000000

/-- The double overflow threshold: exact values of magnitude `≥ maxFinite`
round to `Infinity` when converted back to a JavaScript number, making the
source's `finalizeResult` throw. -/
def maxFinite : ℚ := 179769313486231580793728971405303415079934132710037826936173778980444968292764750946649017977587207096330286416692887910946555547851940402630657488671505820681908902000708383676273854845817711531764475730270069855571366959622842914819860834936475292719074168444365510704342711559699508093042880177904174497792

/-- `PrecisionManager.finalizeResult`: reject a non-finite (overflowed)
result; the decimal-mode `normalize` quantisation is the identity here. -/
def finalize (v : ℚ) : Except DetErr ℚ :=
  if maxFinite ≤ |v| then .error .overflow else .ok v

/-- `PrecisionManager.add` (operand validation is vacuous on `ℚ`). -/
def add (a b : ℚ) : Except DetErr ℚ := finalize (a + b)

/-- `PrecisionManager.subtract`. -/
def sub (a b : ℚ) : Except DetErr ℚ := finalize (a - b)

/-- `PrecisionManager.multiply`. -/
def mul (a b : ℚ) : Except DetErr ℚ := finalize (a * b)

/-- `PrecisionManager.divide`: fails when `|b| < epsilon`, otherwise the
exact quotient (checked against overflow). -/
def div (a b : ℚ) : Except DetErr ℚ :=
  if |b| < eps then .error .divNearZero else finalize (a / b)

/-- `PrecisionManager.compare` with the default epsilon: `0` when the two
values are within epsilon, otherwise the sign of `a - b`.  (The non-finite
guard of the source is vacuous on `ℚ`.) -/
def compare (a b : ℚ) : ℤ :=
  if |a - b| < eps then 0 else if a < b then -1 else 1

/-- `PrecisionManager.lessThan`. -/
def lessThan (a b : ℚ) : Bool := compare a b < 0

/-- `PrecisionManager.greaterThan`. -/
def greaterThan (a b : ℚ) : Bool := compare a b > 0

/-- `PrecisionManager.lerp`: `(1 - t) * a + t * b` computed through the
checked primitives (the `t ∈ [0, 1]` guard never fires at the call sites of
this development, where `t = 0.5`). -/
def lerp (a b t : ℚ) : Except DetErr ℚ := do
  let oneMinusT ← sub 1 t
  let term1 ← mul oneMinusT a
  let term2 ← mul t b
  add term1 term2

/-- `PrecisionManager.midpoint`: `lerp a b 0.5`. -/
def midpoint (a b : ℚ) : Except DetErr ℚ := lerp a b (1 / 2)

end PM

/-! ## Stable merge sort, the model of `Array.prototype.sort(comparator)` -/

/-- Fuel-driven merge of two lists, taking from the left list while `le`
holds (the model of a stable merge step: equal elements keep the left-first
order).  The fuel is only a structural-recursion device; `mergeLe` supplies
enough for the merge to run to completion. -/
def mergeFuel (le : α → α → Bool) : ℕ → List α → List α → List α
  | _, [], ys => ys
  | _, x :: xs, [] => x :: xs
  | 0, xs, _ => xs
  | fuel + 1, x :: xs, y :: ys =>
    if le x y then x :: mergeFuel le fuel xs (y :: ys)
    else y :: mergeFuel le fuel (x :: xs) ys

/-- Merge two lists by a boolean comparator. -/
def mergeLe (le : α → α → Bool) (as bs : List α) : List α :=
  mergeFuel le (as.length + bs.length) as bs

/-- Fuel-driven top-down merge sort; `msort` supplies fuel `l.length`, which
is enough since each half of a list of length `≥ 2` is strictly shorter. -/
def msortFuel (le : α → α → Bool) : ℕ → List α → List α
  | 0, l => l
  | fuel + 1, l =>
    if l.length ≤ 1 then l
    else
      mergeLe le (msortFuel le fuel (l.take (l.length / 2)))
        (msortFuel le fuel (l.drop (l.length / 2)))

/-- Stable top-down merge sort by a boolean comparator: the model of
`Array.prototype.sort(cmp)`. -/
def msort (le : α → α → Bool) (l : List α) : List α := msortFuel le l.length l

/-! ## Adaptive sampler (`src/engine/sampling/adaptive.ts`) -/

/-- `SamplingOptions`: every field optional, merged against the defaults of a
default-constructed `AdaptiveSampler` with JavaScript `||` semantics. -/
structure SamplingOptions where
  maxPoints : Option ℕ := none
  tolerance : Option ℚ := none
  maxDepth : Option ℕ := none
  maxOperations : Option ℕ := none

/-- JavaScript `options.field || default` for a count: `0` (falsy) also
selects the default. -/
def effNat (o : Option ℕ) (d : ℕ) : ℕ :=
  match o with
  | some n => if n = 0 then d else n
  | none => d

/-- JavaScript `options.field || default` for a numeric option: `0` (falsy)
also selects the default. -/
def effQ (o : Option ℚ) (d : ℚ) : ℚ :=
  match o with
  | some q => if q = 0 then d else q
  | none => d

/-- Effective `maxPoints` of a `sample` call on a default-constructed
sampler: the per-call override when supplied (and truthy), otherwise 10000. -/
def effMaxPoints (o : SamplingOptions) : ℕ := effNat o.maxPoints 10000

/-- Effective `tolerance` (default 0.1). -/
def effTolerance (o : SamplingOptions) : ℚ := effQ o.tolerance (1 / 10)

/-- Effective `maxDepth` (default 20). -/
def effMaxDepth (o : SamplingOptions) : ℕ := effNat o.maxDepth 20

/-- Effective `maxOperations` (default 100000). -/
def effMaxOperations (o : SamplingOptions) : ℕ := effNat o.maxOperations 100000

/-- `AdaptiveSampler.safeEvaluate`: the evaluator model `ℚ → Option ℚ`
already merges "throws" and "returns non-finite" into `none`, which is
exactly what `safeEvaluate` produces (`NaN`) in those cases. -/
def safeEvaluate (fn : ℚ → Option ℚ) (x : ℚ) : Option ℚ := fn x

/-- One step of `AdaptiveSampler.addPoints` at loop index `i`:
`t = i / (count - 1)` (or `0` when `count = 1`), `x = a + t * (b - a)`, and
the point is appended only when `y = fn x` is finite. -/
def addPointsStep (fn : ℚ → Option ℚ) (a b : ℚ) (count : ℕ) (pts : List Pt)
    (i : ℕ) : Except DetErr (List Pt) := do
  let t ← if count = 1 then pure 0 else PM.div (i : ℚ) ((count : ℚ) - 1)
  let interval ← PM.sub b a
  let scaled ← PM.mul t interval
  let x ← PM.add a scaled
  match safeEvaluate fn x with
  | some y => pure (pts ++ [⟨x, y⟩])
  | none => pure pts

/-- `AdaptiveSampler.addPoints`: the `for (let i = 0; i < count; i++)` loop. -/
def addPoints (fn : ℚ → Option ℚ) (a b : ℚ) (pts : List Pt) (count : ℕ) :
    Except DetErr (List Pt) :=
  (List.range count).foldlM (addPointsStep fn a b count) pts

/-- The `while` loop of `AdaptiveSampler.sample`.  `fuel` is the number of
loop iterations the `DeterministicTimeout` still allows: the loop increments
the global counter once per iteration and breaks as soon as it has advanced
by `maxOperations` since the timeout was constructed, so a timeout with
budget `m` lets exactly `m - 1` iterations run their body; the loop also
exits when the stack is empty or the collected points reach `maxPoints`. -/
def sampleLoop (fn : ℚ → Option ℚ) (tol : ℚ) (maxDepth maxPoints : ℕ) :
    ℕ → List (ℚ × ℚ × ℕ) → List Pt → Except DetErr (List Pt)
  | _, [], pts => .ok pts
  | fuel, (a, b, depth) :: stk, pts =>
    if maxPoints ≤ pts.length then .ok pts
    else
      match fuel with
      | 0 => .ok pts
      | fuel + 1 =>
        if maxDepth ≤ depth then do
          let pts' ← addPoints fn a b pts 2
          sampleLoop fn tol maxDepth maxPoints fuel stk pts'
        else do
          let mid ← PM.midpoint a b
          match safeEvaluate fn a, safeEvaluate fn b, safeEvaluate fn mid with
          | some fa, some fb, some fm => do
            let expectedMidY ← PM.midpoint fa fb
            let diff ← PM.sub fm expectedMidY
            if PM.lessThan |diff| tol then do
              let pts' ← addPoints fn a b pts 2
              sampleLoop fn tol maxDepth maxPoints fuel stk pts'
            else
              sampleLoop fn tol maxDepth maxPoints fuel
                ((a, mid, depth + 1) :: (mid, b, depth + 1) :: stk) pts
          | _, _, _ => do
            let pts' ← addPoints fn a b pts 2
            sampleLoop fn tol maxDepth maxPoints fuel stk pts'

/-- The point comparator of the final `points.sort`: keep `p` before `q`
when `PrecisionManager.compare(p.x, q.x) ≤ 0`. -/
def ptLe (p q : Pt) : Bool := PM.compare p.x q.x ≤ 0

/-- `AdaptiveSampler.sample` of a default-constructed sampler: run the
subdivision loop from the stack `[(domain₀, domain₁, 0)]` and sort the
collected points with the epsilon-aware comparator. -/
def sample (fn : ℚ → Option ℚ) (domain : ℚ × ℚ) (options : SamplingOptions) :
    Except DetErr (List Pt) :=
  (sampleLoop fn (effTolerance options) (effMaxDepth options) (effMaxPoints options)
      (effMaxOperations options - 1) [(domain.1, domain.2, 0)] []).map (msort ptLe)

/-! ## Viewport (`src/engine/graph/viewport.ts`) -/

/-- `Viewport`: a world-space rectangle plus the device pixel ratio. -/
structure Viewport where
  xMin : ℚ
  xMax : ℚ
  yMin : ℚ
  yMax : ℚ
  pixelRatio : ℚ
deriving DecidableEq, Repr

/-- `Partial<Viewport>`: the optional constructor / `setViewport` patch. -/
structure ViewportPatch where
  xMin : Option ℚ := none
  xMax : Option ℚ := none
  yMin : Option ℚ := none
  yMax : Option ℚ := none
  pixelRatio : Option ℚ := none

/-- `ViewportConstraints`. -/
structure ViewportConstraints where
  minXRange : ℚ
  minYRange : ℚ
  maxXRange : ℚ
  maxYRange : ℚ
  maxZoomLevel : ℚ
deriving DecidableEq, Repr

/-- `Partial<ViewportConstraints>`. -/
structure ConstraintsPatch where
  minXRange : Option ℚ := none
  minYRange : Option ℚ := none
  maxXRange : Option ℚ := none
  maxYRange : Option ℚ := none
  maxZoomLevel : Option ℚ := none

/-- The default viewport of the constructor and of `reset()`:
`[-10,10] × [-10,10]`, pixel ratio 1. -/
def defaultViewport : Viewport := ⟨-10, 10, -10, 10, 1⟩

/-- The default constraints of the constructor. -/
def defaultConstraints : ViewportConstraints :=
  ⟨1 / 10 ^ 10, 1 / 10 ^ 10, 10 ^ 12, 10 ^ 12, 10 ^ 12⟩

/-- JavaScript object spread `{ ...base, ...patch }` for viewports. -/
def mergeViewport (base : Viewport) (p : ViewportPatch) : Viewport :=
  ⟨p.xMin.getD base.xMin, p.xMax.getD base.xMax,
   p.yMin.getD base.yMin, p.yMax.getD base.yMax,
   p.pixelRatio.getD base.pixelRatio⟩

/-- JavaScript object spread `{ ...base, ...patch }` for constraints. -/
def mergeConstraints (base : ViewportConstraints) (p : ConstraintsPatch) :
    ViewportConstraints :=
  ⟨p.minXRange.getD base.minXRange, p.minYRange.getD base.minYRange,
   p.maxXRange.getD base.maxXRange, p.maxYRange.getD base.maxYRange,
   p.maxZoomLevel.getD base.maxZoomLevel⟩

/-- The `GraphViewport` instance state: current viewport, constraints and the
bounded history (capacity 50). -/
structure GraphViewport where
  viewport : Viewport
  constraints : ViewportConstraints
  history : List Viewport
deriving DecidableEq, Repr

namespace GraphViewport

/-- `maxHistorySize`. -/
def maxHistorySize : ℕ := 50

/-- `saveToHistory`: push the current viewport, then drop the oldest entry if
the history grew beyond capacity. -/
def saveToHistory (gv : GraphViewport) : GraphViewport :=
  let h := gv.history ++ [gv.viewport]
  { gv with history := if maxHistorySize < h.length then h.drop 1 else h }

/-- The `GraphViewport` constructor: merge the defaults and the supplied
partial objects, then record the initial state.  Note: the constructor does
NOT call `enforceConstraints`. -/
def create (initial : ViewportPatch) (cons : ConstraintsPatch) : GraphViewport :=
  saveToHistory
    { viewport := mergeViewport defaultViewport initial
      constraints := mergeConstraints defaultConstraints cons
      history := [] }

/-- The minimum-x-range step of `enforceConstraints`: if the width is
epsilon-tolerantly below `minXRange`, re-center and expand to exactly
`minXRange`. -/
def fixMinX (c : ViewportConstraints) (v : Viewport) : Except DetErr Viewport := do
  let w ← PM.sub v.xMax v.xMin
  if PM.lessThan w c.minXRange then do
    let cx ← PM.midpoint v.xMin v.xMax
    let half ← PM.div c.minXRange 2
    let lo ← PM.sub cx half
    let hi ← PM.add cx half
    pure { v with xMin := lo, xMax := hi }
  else pure v

/-- The minimum-y-range step of `enforceConstraints`. -/
def fixMinY (c : ViewportConstraints) (v : Viewport) : Except DetErr Viewport := do
  let h ← PM.sub v.yMax v.yMin
  if PM.lessThan h c.minYRange then do
    let cy ← PM.midpoint v.yMin v.yMax
    let half ← PM.div c.minYRange 2
    let lo ← PM.sub cy half
    let hi ← PM.add cy half
    pure { v with yMin := lo, yMax := hi }
  else pure v

/-- The maximum-x-range step of `enforceConstraints`: if the width is
epsilon-tolerantly above `maxXRange`, re-center and shrink to exactly
`maxXRange`. -/
def fixMaxX (c : ViewportConstraints) (v : Viewport) : Except DetErr Viewport := do
  let w ← PM.sub v.xMax v.xMin
  if PM.greaterThan w c.maxXRange then do
    let cx ← PM.midpoint v.xMin v.xMax
    let half ← PM.div c.maxXRange 2
    let lo ← PM.sub cx half
    let hi ← PM.add cx half
    pure { v with xMin := lo, xMax := hi }
  else pure v

/-- The maximum-y-range step of `enforceConstraints`. -/
def fixMaxY (c : ViewportConstraints) (v : Viewport) : Except DetErr Viewport := do
  let h ← PM.sub v.yMax v.yMin
  if PM.greaterThan h c.maxYRange then do
    let cy ← PM.midpoint v.yMin v.yMax
    let half ← PM.div c.maxYRange 2
    let lo ← PM.sub cy half
    let hi ← PM.add cy half
    pure { v with yMin := lo, yMax := hi }
  else pure v

/-- `enforceConstraints`: swap inverted bounds (epsilon-tolerantly), then
expand to the minimum range and shrink to the maximum range, re-centering;
each range test recomputes the current width/height via the precision layer
(the source runs these four `if` blocks in exactly this order). -/
def enforceConstraints (c : ViewportConstraints) (v0 : Viewport) :
    Except DetErr Viewport := do
  let v1 := if PM.greaterThan v0.xMin v0.xMax then
      { v0 with xMin := v0.xMax, xMax := v0.xMin } else v0
  let v2 := if PM.greaterThan v1.yMin v1.yMax then
      { v1 with yMin := v1.yMax, yMax := v1.yMin } else v1
  let v3 ← fixMinX c v2
  let v4 ← fixMinY c v3
  let v5 ← fixMaxX c v4
  fixMaxY c v5

/-- Common tail of every mutating operation: enforce constraints on the
mutated viewport, then push the result onto the history. -/
def commit (gv : GraphViewport) (v : Viewport) : Except DetErr GraphViewport := do
  let v' ← enforceConstraints gv.constraints v
  pure (saveToHistory { gv with viewport := v' })

/-- `pan(dx, dy)`: translate all four bounds, enforce, record. -/
def pan (gv : GraphViewport) (dx dy : ℚ) : Except DetErr GraphViewport := do
  let xMin' ← PM.add gv.viewport.xMin dx
  let xMax' ← PM.add gv.viewport.xMax dx
  let yMin' ← PM.add gv.viewport.yMin dy
  let yMax' ← PM.add gv.viewport.yMax dy
  commit gv { gv.viewport with xMin := xMin', xMax := xMax', yMin := yMin', yMax := yMax' }

/-- `const zoomCenter = center || this.center`: the supplied center, or the
current geometric center computed through the precision layer. -/
def zoomCenter (gv : GraphViewport) (center : Option (ℚ × ℚ)) :
    Except DetErr (ℚ × ℚ) :=
  match center with
  | some c => pure c
  | none => do
    let cx ← PM.midpoint gv.viewport.xMin gv.viewport.xMax
    let cy ← PM.midpoint gv.viewport.yMin gv.viewport.yMax
    pure (cx, cy)

/-- `zoom(factor, center?)`: scale width/height by `1/factor` around the
center; silently no-ops (no mutation, no history entry) when an
epsilon-tolerant guard on the new width/height or the implied zoom level
fires. -/
def zoom (gv : GraphViewport) (factor : ℚ) (center : Option (ℚ × ℚ)) :
    Except DetErr GraphViewport := do
  let zc ← zoomCenter gv center
  let w ← PM.sub gv.viewport.xMax gv.viewport.xMin
  let newWidth ← PM.div w factor
  let h ← PM.sub gv.viewport.yMax gv.viewport.yMin
  let newHeight ← PM.div h factor
  if PM.lessThan newWidth gv.constraints.minXRange ||
     PM.lessThan newHeight gv.constraints.minYRange then
    pure gv
  else if PM.greaterThan newWidth gv.constraints.maxXRange ||
          PM.greaterThan newHeight gv.constraints.maxYRange then
    pure gv
  else do
    let newZoomLevel ← PM.div 20 newWidth
    if PM.greaterThan newZoomLevel gv.constraints.maxZoomLevel then
      pure gv
    else do
      let halfW ← PM.div newWidth 2
      let halfH ← PM.div newHeight 2
      let xMin' ← PM.sub zc.1 halfW
      let xMax' ← PM.add zc.1 halfW
      let yMin' ← PM.sub zc.2 halfH
      let yMax' ← PM.add zc.2 halfH
      commit gv { gv.viewport with xMin := xMin', xMax := xMax', yMin := yMin', yMax := yMax' }

/-- `setViewport(partial)`: merge the patch, enforce, record. -/
def setViewport (gv : GraphViewport) (p : ViewportPatch) : Except DetErr GraphViewport :=
  commit gv (mergeViewport gv.viewport p)

/-- `fitToPoints(points, padding)`: bounding box (plain `Math.min`/`Math.max`)
expanded by `padding` of the range on each side; no-op on empty input. -/
def fitToPoints (gv : GraphViewport) (points : List Pt) (padding : ℚ) :
    Except DetErr GraphViewport :=
  match points with
  | [] => pure gv
  | p :: rest => do
    let xMin := rest.foldl (fun m q => min m q.x) p.x
    let xMax := rest.foldl (fun m q => max m q.x) p.x
    let yMin := rest.foldl (fun m q => min m q.y) p.y
    let yMax := rest.foldl (fun m q => max m q.y) p.y
    let w ← PM.sub xMax xMin
    let h ← PM.sub yMax yMin
    let padW ← PM.mul w padding
    let padH ← PM.mul h padding
    let xMin' ← PM.sub xMin padW
    let xMax' ← PM.add xMax padW
    let yMin' ← PM.sub yMin padH
    let yMax' ← PM.add yMax padH
    commit gv { gv.viewport with xMin := xMin', xMax := xMax', yMin := yMin', yMax := yMax' }

/-- `reset()`: restore the default window, keep the pixel ratio, record
(without enforcing constraints). -/
def reset (gv : GraphViewport) : GraphViewport :=
  saveToHistory
    { gv with viewport := { defaultViewport with pixelRatio := gv.viewport.pixelRatio } }

/-- `undo()`: with more than one history entry, pop the current state and the
one beneath it, restore the latter and record it again; otherwise report
`false` without mutating. -/
def undo (gv : GraphViewport) : GraphViewport × Bool :=
  if gv.history.length ≤ 1 then (gv, false)
  else
    match gv.history.dropLast.getLast? with
    | some prev =>
      (saveToHistory { gv with viewport := prev, history := gv.history.dropLast.dropLast }, true)
    | none => ({ gv with history := gv.history.dropLast }, false)

end GraphViewport

/-! ## Coordinate transformer (`src/engine/graph/transforms.ts`) -/

/-- `ScaleTransform`: the parameters of a linear transform. -/
structure ScaleTransform where
  scaleX : ℚ
  scaleY : ℚ
  offsetX : ℚ
  offsetY : ℚ
deriving DecidableEq, Repr

/-- `createLinearTransform(...).forward`:
`{ scaleX * x + offsetX, scaleY * y + offsetY }` through the precision layer. -/
def linearForward (s : ScaleTransform) (p : Pt) : Except DetErr Pt := do
  let sx ← PM.mul s.scaleX p.x
  let x ← PM.add sx s.offsetX
  let sy ← PM.mul s.scaleY p.y
  let y ← PM.add sy s.offsetY
  pure ⟨x, y⟩

/-- `createLinearTransform(...).inverse`:
`{ (x - offsetX) / scaleX, (y - offsetY) / scaleY }` through the precision
layer (fails via `divide` when a scale is within epsilon of zero). -/
def linearInverse (s : ScaleTransform) (p : Pt) : Except DetErr Pt := do
  let dx ← PM.sub p.x s.offsetX
  let x ← PM.div dx s.scaleX
  let dy ← PM.sub p.y s.offsetY
  let y ← PM.div dy s.scaleY
  pure ⟨x, y⟩

/-! ## Circuit breaker (`src/engine/determinism/OperationCounter.ts`) -/

/-- The state of a `CircuitBreaker`. -/
structure CircuitBreaker where
  name : String
  maxOperations : ℕ
  operationCount : ℕ
  isTripped : Bool
deriving DecidableEq, Repr

/-- The outcome of `CircuitBreaker.execute`: either the protected function's
own error, or a `CircuitBreakerError` carrying the breaker name, the budget
and the actual operation count. -/
inductive CBOutcome (ε : Type) where
  | user : ε → CBOutcome ε
  | breakerTripped : String → ℕ → ℕ → CBOutcome ε
deriving DecidableEq, Repr

namespace CircuitBreaker

/-- The `CircuitBreaker` constructor: zero operations, not tripped. -/
def make (name : String) (maxOperations : ℕ) : CircuitBreaker :=
  ⟨name, maxOperations, 0, false⟩

/-- `execute(fn, fallback?)`, modelled over a pure outcome `fn : Except ε α`
(the evaluated protected call) and `fallback : Option (Except ε α)`.  The
counter is incremented first; once it exceeds `maxOperations` the breaker
trips and `fn` is never consulted: the fallback result is returned when
supplied, otherwise a `CircuitBreakerError` with the name, the budget and the
post-increment count.  Below the budget, `fn`'s outcome is returned and a
failure of `fn` also trips the breaker (and is re-thrown). -/
def execute (b : CircuitBreaker) (fn : Except ε α) (fallback : Option (Except ε α)) :
    Except (CBOutcome ε) α × CircuitBreaker :=
  let c := b.operationCount + 1
  if b.maxOperations < c then
    let b' := { b with operationCount := c, isTripped := true }
    match fallback with
    | some g => (g.mapError .user, b')
    | none => (.error (.breakerTripped b.name b.maxOperations c), b')
  else
    match fn with
    | .ok v => (.ok v, { b with operationCount := c })
    | .error e => (.error (.user e), { b with operationCount := c, isTripped := true })

/-- `reset()`. -/
def reset (b : CircuitBreaker) : CircuitBreaker :=
  { b with operationCount := 0, isTripped := false }

end CircuitBreaker

/-! ## Marching squares (`src/engine/sampling/marchingSquares.ts`) -/

/-- `MarchingOptions`, with `||`/`??` default semantics. -/
structure MarchingOptions where
  cols : Option ℕ := none
  rows : Option ℕ := none
  iso : Option ℚ := none
  maxSegments : Option ℕ := none

/-- Effective `cols` (`options.cols || 128`). -/
def effCols (o : MarchingOptions) : ℕ := effNat o.cols 128

/-- Effective `rows` (`options.rows || 128`). -/
def effRows (o : MarchingOptions) : ℕ := effNat o.rows 128

/-- Effective `iso` (`options.iso ?? 0` — nullish, not falsy). -/
def effIso (o : MarchingOptions) : ℚ := o.iso.getD 0

/-- Effective `maxSegments` (`options.maxSegments || 10000`). -/
def effMaxSegments (o : MarchingOptions) : ℕ := effNat o.maxSegments 10000

namespace MS

/-- One grid evaluation: the value at `(xMin + i*dx, yMin + j*dy)`; `none`
is the `NaN` the source records for a throwing or non-finite evaluation. -/
def gridVal (fn : ℚ → ℚ → Option ℚ) (xMin yMin dx dy : ℚ) (i j : ℕ) : Option ℚ :=
  fn (xMin + i * dx) (yMin + j * dy)

/-- Corner classification: `isFinite(v) && v > iso` (a `NaN` corner counts
as below). -/
def cornerBit (v : Option ℚ) (iso : ℚ) : Bool :=
  match v with
  | some q => iso < q
  | none => false

/-- `sampleEdge`: endpoints and corner values of edge `edge` of cell
`(i, j)` (0 = left, 1 = top, 2 = right, anything else = bottom, matching the
source's `else`), then the linear interpolation of the iso crossing; `null`
when a corner is `NaN` or the interpolation parameter is not finite
(`v1 = v2`). -/
def sampleEdge (fn : ℚ → ℚ → Option ℚ) (xMin yMin dx dy iso : ℚ) (i j : ℕ)
    (edge : ℕ) : Option Pt :=
  let g := gridVal fn xMin yMin dx dy
  let (x1, y1, v1, x2, y2, v2) :=
    if edge = 0 then
      (xMin + i * dx, yMin + j * dy, g i j,
       xMin + i * dx, yMin + (j + 1) * dy, g i (j + 1))
    else if edge = 1 then
      (xMin + i * dx, yMin + (j + 1) * dy, g i (j + 1),
       xMin + (i + 1) * dx, yMin + (j + 1) * dy, g (i + 1) (j + 1))
    else if edge = 2 then
      (xMin + (i + 1) * dx, yMin + (j + 1) * dy, g (i + 1) (j + 1),
       xMin + (i + 1) * dx, yMin + j * dy, g (i + 1) j)
    else
      (xMin + (i + 1) * dx, yMin + j * dy, g (i + 1) j,
       xMin + i * dx, yMin + j * dy, g i j)
  match v1, v2 with
  | some w1, some w2 =>
    if w2 - w1 = 0 then none
    else
      let t := (iso - w1) / (w2 - w1)
      some ⟨x1 + t * (x2 - x1), y1 + t * (y2 - y1)⟩
  | _, _ => none

/-- The fixed 16-entry marching-squares edge table. -/
def edgeTable : List (List ℕ) :=
  [[], [0, 3], [3, 2], [0, 2], [1, 2], [0, 1, 2, 3], [1, 3], [0, 1],
   [0, 1], [1, 3], [0, 1, 2, 3], [1, 2], [0, 2], [3, 2], [0, 3], []]

/-- The 4-bit cell index from the four corner classifications
(`b0 | b1 << 1 | b2 << 2 | b3 << 3`). -/
def cellIndex (fn : ℚ → ℚ → Option ℚ) (xMin yMin dx dy iso : ℚ) (i j : ℕ) : ℕ :=
  let g := gridVal fn xMin yMin dx dy
  (if cornerBit (g i j) iso then 1 else 0) +
  (if cornerBit (g (i + 1) j) iso then 2 else 0) +
  (if cornerBit (g (i + 1) (j + 1)) iso then 4 else 0) +
  (if cornerBit (g i (j + 1)) iso then 8 else 0)

/-- The candidate polyline of one cell: the interpolated points of the edges
listed for the cell's index (edges whose `sampleEdge` is `null` are skipped). -/
def cellPoly (fn : ℚ → ℚ → Option ℚ) (xMin yMin dx dy iso : ℚ) (i j : ℕ) :
    List Pt :=
  ((edgeTable.getD (cellIndex fn xMin yMin dx dy iso i j) []).filterMap
    (sampleEdge fn xMin yMin dx dy iso i j))

/-- The double cell loop of `marchingSquares`: rows outer, columns inner;
a cell's polyline is emitted only when it has at least 2 points, and the
whole extraction returns as soon as `maxSegments` polylines are collected. -/
def msLoop (fn : ℚ → ℚ → Option ℚ) (xMin yMin dx dy iso : ℚ) (maxSegments : ℕ) :
    List (ℕ × ℕ) → List (List Pt) → List (List Pt)
  | [], segments => segments
  | (j, i) :: rest, segments =>
    let poly := cellPoly fn xMin yMin dx dy iso i j
    if 2 ≤ poly.length then
      let segments' := segments ++ [poly]
      if maxSegments ≤ segments'.length then segments'
      else msLoop fn xMin yMin dx dy iso maxSegments rest segments'
    else msLoop fn xMin yMin dx dy iso maxSegments rest segments

/-- The cell visit order: `for (j of rows) for (i of cols)`. -/
def cellList (rows cols : ℕ) : List (ℕ × ℕ) :=
  (List.range rows).flatMap (fun j => (List.range cols).map (fun i => (j, i)))

/-- `marchingSquares(fn, xMin, xMax, yMin, yMax, options)`. -/
def marchingSquares (fn : ℚ → ℚ → Option ℚ) (xMin xMax yMin yMax : ℚ)
    (options : MarchingOptions) : List (List Pt) :=
  let cols := effCols options
  let rows := effRows options
  let iso := effIso options
  let maxSegments := effMaxSegments options
  let dx := (xMax - xMin) / cols
  let dy := (yMax - yMin) / rows
  msLoop fn xMin yMin dx dy iso maxSegments (cellList rows cols) []

end MS

/-! ## Concrete instances used in witnesses and counterexamples -/

instance {ε α : Type} [DecidableEq ε] [DecidableEq α] : DecidableEq (Except ε α) :=
  fun a b =>
    match a, b with
    | .ok x, .ok y =>
      if h : x = y then .isTrue (by rw [h]) else .isFalse (fun hc => by cases hc; exact h rfl)
    | .error e, .error f =>
      if h : e = f then .isTrue (by rw [h]) else .isFalse (fun hc => by cases hc; exact h rfl)
    | .ok _, .error _ => .isFalse (fun hc => by cases hc)
    | .error _, .ok _ => .isFalse (fun hc => by cases hc)

/-- Concrete evaluator `x ↦ x²` (total, finite everywhere). -/
def fnSquare : ℚ → Option ℚ := fun x => some (x * x)

/-- Options forcing a tiny budget: `maxPoints = 3`, `maxDepth = 1`,
`maxOperations = 10`. -/
def optsSmall : SamplingOptions :=
  { maxPoints := some 3, maxDepth := some 1, maxOperations := some 10 }

/-- The four points `sample fnSquare (0, 1) optsSmall` returns. -/
def ptsSquare : List Pt :=
  [⟨0, 0⟩, ⟨1 / 2, 1 / 4⟩, ⟨1 / 2, 1 / 4⟩, ⟨1, 1⟩]

/-- A finite double magnitude, `9·10³⁰⁷`, whose doubling overflows the IEEE
double range. -/
def bigMag : ℚ := 90000000000000000000000000000000000000000000000000000000000000000000000000000000000000000000000000000000000000000000000000000000000000000000000000000000000000000000000000000000000000000000000000000000000000000000000000000000000000000000000000000000000000000000000000000000000000000000000000000000000000000000

/-- Concrete evaluator returning only finite values (`±9·10³⁰⁷`), designed so
the sampler's own error estimate `subtract(f(m), midpoint(f(a), f(b)))`
overflows. -/
def fnOverflow : ℚ → Option ℚ :=
  fun x => if x = 1 / 2 then some (-bigMag) else some bigMag

/-- Options with a small operation budget (all other defaults). -/
def optsBudget : SamplingOptions := { maxOperations := some 10 }

/-- The constant-zero evaluator. -/
def fnZero : ℚ → Option ℚ := fun _ => some 0

/-- An initial viewport patch with inverted x bounds (`xMin = 5 > xMax = -5`). -/
def invertedPatch : ViewportPatch := { xMin := some 5, xMax := some (-5) }

/-- A width smaller than the default `minXRange` by half an epsilon — outside
the configured limits, but within the tolerance of the epsilon comparisons. -/
def slimWidth : ℚ := 1 / 10 ^ 10 - PM.eps / 2

/-- A viewport whose width is `slimWidth`. -/
def slimPatch : ViewportPatch :=
  { xMin := some 0, xMax := some slimWidth, yMin := some 0, yMax := some 10 }

/-- The state after `new GraphViewport(slimPatch)`. -/
def slimGV : GraphViewport := GraphViewport.create slimPatch {}

/-- A default-constructed `GraphViewport`. -/
def freshGV : GraphViewport := GraphViewport.create {} {}

/-- The transform parameters of the spec's round-trip example:
`{scaleX: 2.5, scaleY: 1.5, offsetX: 100, offsetY: -50}`. -/
def exampleScale : ScaleTransform := ⟨5 / 2, 3 / 2, 100, -50⟩

/-- The point of the spec's round-trip example: `{x: 42.123, y: 37.456}`. -/
def examplePt : Pt := ⟨42123 / 1000, 37456 / 1000⟩

/-- The circle evaluator `f(x, y) = x² + y² - 4`. -/
def fnCircle : ℚ → ℚ → Option ℚ := fun x y => some (x * x + y * y - 4)

/-- A coarse 2×2 marching-squares grid. -/
def msOptsSmall : MarchingOptions := { cols := some 2, rows := some 2 }

/-- A magnitude bound (a quarter of the overflow threshold) under which every
arithmetic step of a sampler run stays below the overflow threshold. -/
def sampleBound : ℚ := PM.maxFinite / 4

/-- The width/height of a viewport lies within the configured range limits up
to the comparison epsilon (the epsilon-tolerant guards admit a violation
smaller than `PM.eps`). -/
def goodRange (minR maxR w : ℚ) : Prop :=
  minR - PM.eps ≤ w ∧ w ≤ maxR + PM.eps

/-- The viewport ordering/range invariant actually maintained by
`enforceConstraints`. -/
def GoodVP (c : ViewportConstraints) (v : Viewport) : Prop :=
  v.xMin < v.xMax ∧ v.yMin < v.yMax ∧
  goodRange c.minXRange c.maxXRange (v.xMax - v.xMin) ∧
  goodRange c.minYRange c.maxYRange (v.yMax - v.yMin)

/-- Well-formedness of a constraints object: each minimum range clearly
positive (beyond epsilon) and below the corresponding maximum.  The default
constraints satisfy this. -/
def NiceCons (c : ViewportConstraints) : Prop :=
  PM.eps < c.minXRange ∧ c.minXRange ≤ c.maxXRange ∧
  PM.eps < c.minYRange ∧ c.minYRange ≤ c.maxYRange

/-- First/second corner classification bits read by `sampleEdge` for each of
the four edges (edge 0 = left: corners `(i,j)`/`(i,j+1)`; edge 1 = top;
edge 2 = right; anything else = bottom), expressed over the cell's corner
bits `b0..b3`. -/
def edgeBits (b0 b1 b2 b3 : Bool) (e : ℕ) : Bool × Bool :=
  if e = 0 then (b0, b3)
  else if e = 1 then (b3, b2)
  else if e = 2 then (b2, b1)
  else (b1, b0)

/-- The 4-bit index as a function of the four corner bits. -/
def idxOf (b0 b1 b2 b3 : Bool) : ℕ :=
  (if b0 then 1 else 0) + (if b1 then 2 else 0) +
  (if b2 then 4 else 0) + (if b3 then 8 else 0)

/-! ## Theorems: precision-layer facts -/

theorem PM.eps_pos : 0 < PM.eps := by norm_num [PM.eps]

theorem PM.eps_lt_one : PM.eps < 1 := by norm_num [PM.eps]

theorem PM.one_lt_maxFinite : 1 < PM.maxFinite := by norm_num [PM.maxFinite]

theorem PM.maxFinite_pos : 0 < PM.maxFinite :=
  lt_trans one_pos PM.one_lt_maxFinite

theorem PM.finalize_ok {v w : ℚ} (h : PM.finalize v = .ok w) :
    w = v ∧ |v| < PM.maxFinite := by
  unfold PM.finalize at h
  split at h
  next => exact absurd h (by simp)
  next hlt =>
    refine ⟨((Except.ok.injEq _ _).mp h).symm, ?_⟩
    exact lt_of_not_le hlt

theorem PM.sub_ok {a b w : ℚ} (h : PM.sub a b = .ok w) : w = a - b :=
  (PM.finalize_ok h).1

theorem PM.add_ok {a b w : ℚ} (h : PM.add a b = .ok w) : w = a + b :=
  (PM.finalize_ok h).1

theorem PM.mul_ok {a b w : ℚ} (h : PM.mul a b = .ok w) : w = a * b :=
  (PM.finalize_ok h).1

theorem PM.div_ok {a b w : ℚ} (h : PM.div a b = .ok w) : w = a / b := by
  unfold PM.div at h
  split at h
  · exact absurd h (by simp)
  · exact (PM.finalize_ok h).1

theorem PM.finalize_of_lt {v : ℚ} (h : |v| < PM.maxFinite) :
    PM.finalize v = .ok v := by
  unfold PM.finalize
  rw [if_neg (by linarith)]

theorem PM.add_of_lt {a b : ℚ} (h : |a + b| < PM.maxFinite) :
    PM.add a b = .ok (a + b) := PM.finalize_of_lt h

theorem PM.sub_of_lt {a b : ℚ} (h : |a - b| < PM.maxFinite) :
    PM.sub a b = .ok (a - b) := PM.finalize_of_lt h

theorem PM.mul_of_lt {a b : ℚ} (h : |a * b| < PM.maxFinite) :
    PM.mul a b = .ok (a * b) := PM.finalize_of_lt h

theorem PM.div_of_lt {a b : ℚ} (hb : PM.eps ≤ |b|) (h : |a / b| < PM.maxFinite) :
    PM.div a b = .ok (a / b) := by
  unfold PM.div
  rw [if_neg (by linarith), PM.finalize_of_lt h]

theorem PM.midpoint_ok {a b m : ℚ} (h : PM.midpoint a b = .ok m) :
    m = (a + b) / 2 := by
  unfold PM.midpoint PM.lerp at h
  simp only [bind, Except.bind] at h
  cases h1 : PM.sub 1 (1 / 2) with
  | error e => simp only [h1] at h; exact (Except.noConfusion h)
  | ok o =>
    simp only [h1] at h
    cases h2 : PM.mul o a with
    | error e => simp only [h2] at h; exact (Except.noConfusion h)
    | ok t1 =>
      simp only [h2] at h
      cases h3 : PM.mul (1 / 2) b with
      | error e => simp only [h3] at h; exact (Except.noConfusion h)
      | ok t2 =>
        simp only [h3] at h
        have ho := PM.sub_ok h1
        have ht1 := PM.mul_ok h2
        have ht2 := PM.mul_ok h3
        have hm := PM.add_ok h
        subst ho ht1 ht2 hm
        ring

theorem PM.midpoint_of_le {a b B : ℚ} (hB : 4 * B ≤ PM.maxFinite) (hBpos : 0 < B)
    (ha : |a| ≤ B) (hb : |b| ≤ B) :
    PM.midpoint a b = .ok ((a + b) / 2) := by
  have h2 : |(1 : ℚ) - 1 / 2| < PM.maxFinite := by
    rw [abs_of_nonneg (by norm_num)]
    calc (1 : ℚ) - 1 / 2 < 1 := by norm_num
    _ < PM.maxFinite := PM.one_lt_maxFinite
  have hmul1 : |(1 - 1 / 2) * a| < PM.maxFinite := by
    rw [abs_mul]
    calc |(1 : ℚ) - 1/2| * |a| ≤ 1 * B := by
          apply mul_le_mul (by rw [abs_of_nonneg] <;> norm_num) ha (abs_nonneg a) (by norm_num)
    _ < PM.maxFinite := by nlinarith
  have hmul2 : |(1 / 2 : ℚ) * b| < PM.maxFinite := by
    rw [abs_mul]
    calc |(1 / 2 : ℚ)| * |b| ≤ 1 * B := by
          apply mul_le_mul (by rw [abs_of_nonneg] <;> norm_num) hb (abs_nonneg b) (by norm_num)
    _ < PM.maxFinite := by nlinarith
  have hadd : |(1 - 1 / 2) * a + 1 / 2 * b| < PM.maxFinite := by
    have : |(1 - 1/2) * a + 1/2 * b| ≤ |a| / 2 + |b| / 2 := by
      calc |(1 - 1/2) * a + 1/2 * b| ≤ |(1 - 1/2) * a| + |1/2 * b| := abs_add _ _
      _ = |a| / 2 + |b| / 2 := by
          rw [abs_mul, abs_mul, abs_of_nonneg (by norm_num : (0:ℚ) ≤ 1 - 1/2),
            abs_of_nonneg (by norm_num : (0:ℚ) ≤ (1/2 : ℚ))]
          ring
    nlinarith
  unfold PM.midpoint PM.lerp
  simp only [bind, Except.bind]
  simp only [PM.sub_of_lt h2, PM.mul_of_lt hmul1, PM.mul_of_lt hmul2, PM.add_of_lt hadd]
  congr 1
  ring

theorem PM.compare_eq_zero {a b : ℚ} (h : |a - b| < PM.eps) : PM.compare a b = 0 := by
  unfold PM.compare
  rw [if_pos h]

theorem PM.lessThan_iff {a b : ℚ} : PM.lessThan a b = true ↔ a + PM.eps ≤ b := by
  unfold PM.lessThan PM.compare
  constructor
  · intro h
    split at h
    · simp at h
    · split at h
      next hab hlt =>
        have habs : PM.eps ≤ |a - b| := le_of_not_lt hab
        rw [abs_of_nonpos (by linarith)] at habs
        linarith
      · simp at h
  · intro h
    have hlt : a < b := by nlinarith [PM.eps_pos]
    have habs : ¬ |a - b| < PM.eps := by
      rw [abs_of_nonpos (by linarith)]
      push_neg
      linarith
    rw [if_neg habs, if_pos hlt]
    decide

theorem PM.greaterThan_iff {a b : ℚ} : PM.greaterThan a b = true ↔ b + PM.eps ≤ a := by
  unfold PM.greaterThan PM.compare
  constructor
  · intro h
    split at h
    · simp at h
    · split at h
      · simp at h
      next hab hlt =>
        have habs : PM.eps ≤ |a - b| := le_of_not_lt hab
        have hba : ¬ a < b := hlt
        rw [abs_of_nonneg (by push_neg at hba; linarith)] at habs
        linarith
  · intro h
    have hlt : ¬ a < b := by push_neg; nlinarith [PM.eps_pos]
    have habs : ¬ |a - b| < PM.eps := by
      rw [abs_of_nonneg (by push_neg at hlt; linarith)]
      push_neg
      linarith
    rw [if_neg habs, if_neg hlt]
    decide

theorem PM.lessThan_eq_false {a b : ℚ} : PM.lessThan a b = false ↔ b < a + PM.eps := by
  rw [← Bool.not_eq_true, not_iff_comm, PM.lessThan_iff]
  push_neg
  constructor <;> intro h <;> linarith

theorem PM.greaterThan_eq_false {a b : ℚ} : PM.greaterThan a b = false ↔ a < b + PM.eps := by
  rw [← Bool.not_eq_true, not_iff_comm, PM.greaterThan_iff]
  push_neg
  constructor <;> intro h <;> linarith

/-- Totality of the sampler's sort comparator: when `p` is not `≤` `q`,
`q` is `≤` `p` (`compare p q = 1` forces `compare q p = -1`). -/
theorem ptLe_total (p q : Pt) : ptLe p q = false → ptLe q p = true := by
  unfold ptLe PM.compare
  intro h
  split at h
  · simp at h
  next hab =>
    split at h
    · simp at h
    next hlt =>
      have habs : |q.x - p.x| < PM.eps ∨ q.x < p.x := by
        right
        rcases lt_trichotomy p.x q.x with h1 | h1 | h1
        · exact absurd h1 hlt
        · exact absurd (by rw [h1, sub_self, abs_zero]; exact PM.eps_pos) hab
        · exact h1
      rcases habs with h1 | h1
      · rw [if_pos h1]; decide
      · by_cases h2 : |q.x - p.x| < PM.eps
        · rw [if_pos h2]; decide
        · rw [if_neg h2, if_pos h1]; decide

/-! ## Theorems: merge-sort model facts -/

theorem mem_mergeFuel {le : α → α → Bool} :
    ∀ (fuel : ℕ) (as bs : List α) (x : α), x ∈ mergeFuel le fuel as bs → x ∈ as ∨ x ∈ bs := by
  intro fuel
  induction fuel with
  | zero =>
    intro as bs x hx
    cases as with
    | nil => exact Or.inr (by simpa [mergeFuel] using hx)
    | cons a as' =>
      cases bs with
      | nil => exact Or.inl (by simpa [mergeFuel] using hx)
      | cons b bs' => exact Or.inl (by simpa [mergeFuel] using hx)
  | succ fuel ih =>
    intro as bs x hx
    cases as with
    | nil => exact Or.inr (by simpa [mergeFuel] using hx)
    | cons a as' =>
      cases bs with
      | nil => exact Or.inl (by simpa [mergeFuel] using hx)
      | cons b bs' =>
        simp only [mergeFuel] at hx
        split at hx
        · rcases List.mem_cons.mp hx with h | h
          · exact Or.inl (h ▸ List.mem_cons_self a as')
          · rcases ih as' (b :: bs') x h with h' | h'
            · exact Or.inl (List.mem_cons_of_mem a h')
            · exact Or.inr h'
        · rcases List.mem_cons.mp hx with h | h
          · exact Or.inr (h ▸ List.mem_cons_self b bs')
          · rcases ih (a :: as') bs' x h with h' | h'
            · exact Or.inl h'
            · exact Or.inr (List.mem_cons_of_mem b h')

theorem length_mergeFuel {le : α → α → Bool} :
    ∀ (fuel : ℕ) (as bs : List α), as.length + bs.length ≤ fuel →
      (mergeFuel le fuel as bs).length = as.length + bs.length := by
  intro fuel
  induction fuel with
  | zero =>
    intro as bs h
    cases as with
    | nil => simp [mergeFuel]
    | cons a as' =>
      cases bs with
      | nil => simp [mergeFuel]
      | cons b bs' => simp at h
  | succ fuel ih =>
    intro as bs h
    cases as with
    | nil => simp [mergeFuel]
    | cons a as' =>
      cases bs with
      | nil => simp [mergeFuel]
      | cons b bs' =>
        simp only [mergeFuel]
        split
        · have := ih as' (b :: bs') (by simp at h ⊢; omega)
          simp at this ⊢
          omega
        · have := ih (a :: as') bs' (by simp at h ⊢; omega)
          simp at this ⊢
          omega

theorem head_mergeFuel {le : α → α → Bool} (fuel : ℕ) (as bs : List α) (z : α)
    (h : (mergeFuel le fuel as bs).head? = some z) :
    as.head? = some z ∨ bs.head? = some z := by
  cases as with
  | nil => exact Or.inr (by simpa [mergeFuel] using h)
  | cons a as' =>
    cases bs with
    | nil => exact Or.inl (by simpa [mergeFuel] using h)
    | cons b bs' =>
      cases fuel with
      | zero => exact Or.inl (by simpa [mergeFuel] using h)
      | succ fuel =>
        simp only [mergeFuel] at h
        split at h
        · exact Or.inl (by simpa using h)
        · exact Or.inr (by simpa using h)

theorem chain'_mergeFuel {le : α → α → Bool}
    (htot : ∀ a b, le a b = false → le b a = true) :
    ∀ (fuel : ℕ) (as bs : List α),
      List.Chain' (fun a b => le a b = true) as →
      List.Chain' (fun a b => le a b = true) bs →
      List.Chain' (fun a b => le a b = true) (mergeFuel le fuel as bs) := by
  intro fuel
  induction fuel with
  | zero =>
    intro as bs ha hb
    cases as with
    | nil => simpa [mergeFuel]
    | cons a as' =>
      cases bs with
      | nil => simpa [mergeFuel]
      | cons b bs' => simpa [mergeFuel]
  | succ fuel ih =>
    intro as bs ha hb
    cases as with
    | nil => simpa [mergeFuel]
    | cons a as' =>
      cases bs with
      | nil => simpa [mergeFuel]
      | cons b bs' =>
        simp only [mergeFuel]
        split
        next hle =>
          rw [List.chain'_cons']
          refine ⟨?_, ih as' (b :: bs') (List.Chain'.tail ha) hb⟩
          intro z hz
          rcases head_mergeFuel fuel as' (b :: bs') z hz with h | h
          · exact (List.chain'_cons'.mp ha).1 z h
          · simp at h
            exact h ▸ hle
        next hle =>
          rw [List.chain'_cons']
          refine ⟨?_, ih (a :: as') bs' ha (List.Chain'.tail hb)⟩
          intro z hz
          rcases head_mergeFuel fuel (a :: as') bs' z hz with h | h
          · simp at h
            exact h ▸ htot a b (by simpa using hle)
          · exact (List.chain'_cons'.mp hb).1 z h

theorem chain'_of_length_le_one {R : α → α → Prop} {l : List α} (h : l.length ≤ 1) :
    List.Chain' R l := by
  cases l with
  | nil => exact List.chain'_nil
  | cons x xs =>
    cases xs with
    | nil => exact List.chain'_singleton x
    | cons y ys => simp at h

theorem mem_msortFuel {le : α → α → Bool} :
    ∀ (fuel : ℕ) (l : List α) (x : α), x ∈ msortFuel le fuel l → x ∈ l := by
  intro fuel
  induction fuel with
  | zero => intro l x hx; simpa [msortFuel] using hx
  | succ fuel ih =>
    intro l x hx
    simp only [msortFuel] at hx
    split at hx
    · exact hx
    · rcases mem_mergeFuel _ _ _ _ hx with h | h
      · exact List.take_subset _ _ (ih _ _ h)
      · exact List.drop_subset _ _ (ih _ _ h)

theorem length_msortFuel {le : α → α → Bool} :
    ∀ (fuel : ℕ) (l : List α), l.length ≤ fuel →
      (msortFuel le fuel l).length = l.length := by
  intro fuel
  induction fuel with
  | zero => intro l h; simp [msortFuel]
  | succ fuel ih =>
    intro l h
    simp only [msortFuel]
    split
    · rfl
    next hlen =>
      push_neg at hlen
      have ht : (l.take (l.length / 2)).length ≤ fuel := by
        simp [List.length_take]
        omega
      have hd : (l.drop (l.length / 2)).length ≤ fuel := by
        simp [List.length_drop]
        omega
      rw [mergeLe, length_mergeFuel _ _ _ (le_refl _), ih _ ht, ih _ hd,
        List.length_take, List.length_drop]
      omega

theorem chain'_msortFuel {le : α → α → Bool}
    (htot : ∀ a b, le a b = false → le b a = true) :
    ∀ (fuel : ℕ) (l : List α), l.length ≤ fuel →
      List.Chain' (fun a b => le a b = true) (msortFuel le fuel l) := by
  intro fuel
  induction fuel with
  | zero =>
    intro l h
    have : l = [] := List.length_eq_zero.mp (Nat.le_zero.mp h)
    simp [this, msortFuel]
  | succ fuel ih =>
    intro l h
    simp only [msortFuel]
    split
    next hlen => exact chain'_of_length_le_one hlen
    next hlen =>
      push_neg at hlen
      have ht : (l.take (l.length / 2)).length ≤ fuel := by
        simp [List.length_take]
        omega
      have hd : (l.drop (l.length / 2)).length ≤ fuel := by
        simp [List.length_drop]
        omega
      exact chain'_mergeFuel htot _ _ _ (ih _ ht) (ih _ hd)

theorem length_msort {le : α → α → Bool} (l : List α) : (msort le l).length = l.length :=
  length_msortFuel l.length l (le_refl _)

theorem mem_msort {le : α → α → Bool} {l : List α} {x : α} (h : x ∈ msort le l) : x ∈ l :=
  mem_msortFuel l.length l x h

theorem chain'_msort {le : α → α → Bool}
    (htot : ∀ a b, le a b = false → le b a = true) (l : List α) :
    List.Chain' (fun a b => le a b = true) (msort le l) :=
  chain'_msortFuel htot l.length l (le_refl _)

/-! ## Theorems: the point budget of the sampler (claim C1) -/

theorem addPointsStep_ok {fn : ℚ → Option ℚ} {a b : ℚ} {count : ℕ} {pts out : List Pt}
    {i : ℕ} (h : addPointsStep fn a b count pts i = .ok out) :
    out = pts ∨ ∃ p, out = pts ++ [p] := by
  unfold addPointsStep at h
  simp only [bind, Except.bind, pure, Except.pure] at h
  repeat
    first
      | exact Or.inl ((Except.ok.injEq _ _).mp h).symm
      | exact Or.inr ⟨_, ((Except.ok.injEq _ _).mp h).symm⟩
      | exact (Except.noConfusion h)
      | split at h

theorem addPointsStep_length {fn : ℚ → Option ℚ} {a b : ℚ} {count : ℕ}
    {pts out : List Pt} {i : ℕ} (h : addPointsStep fn a b count pts i = .ok out) :
    out.length ≤ pts.length + 1 := by
  rcases addPointsStep_ok h with h' | ⟨p, h'⟩ <;> subst h' <;> simp

theorem foldlM_addPointsStep_length {fn : ℚ → Option ℚ} {a b : ℚ} {count : ℕ} :
    ∀ (is : List ℕ) (pts out : List Pt),
      is.foldlM (addPointsStep fn a b count) pts = .ok out →
      out.length ≤ pts.length + is.length := by
  intro is
  induction is with
  | nil =>
    intro pts out h
    simp only [List.foldlM, pure, Except.pure] at h
    simp [((Except.ok.injEq _ _).mp h).symm]
  | cons i is ih =>
    intro pts out h
    simp only [List.foldlM, bind, Except.bind] at h
    rcases h1 : addPointsStep fn a b count pts i with p | pts'
    · simp only [h1] at h; exact (Except.noConfusion h)
    · simp only [h1] at h
      have := ih pts' out (by simpa [List.foldlM] using h)
      have h2 := addPointsStep_length h1
      simp only [List.length_cons]
      omega

theorem addPoints_length {fn : ℚ → Option ℚ} {a b : ℚ} {pts out : List Pt} {count : ℕ}
    (h : addPoints fn a b pts count = .ok out) :
    out.length ≤ pts.length + count := by
  have := foldlM_addPointsStep_length (List.range count) pts out h
  simpa using this

theorem sampleLoop_length {fn : ℚ → Option ℚ} {tol : ℚ} {maxDepth maxPoints : ℕ} :
    ∀ (fuel : ℕ) (stk : List (ℚ × ℚ × ℕ)) (pts out : List Pt),
      pts.length ≤ maxPoints + 1 →
      sampleLoop fn tol maxDepth maxPoints fuel stk pts = .ok out →
      out.length ≤ maxPoints + 1 := by
  intro fuel
  induction fuel with
  | zero =>
    intro stk pts out hlen h
    cases stk with
    | nil =>
      simp only [sampleLoop] at h
      rw [← Except.ok.inj h]
      exact hlen
    | cons fr stk' =>
      obtain ⟨a, b, depth⟩ := fr
      simp only [sampleLoop] at h
      split at h <;> (rw [← Except.ok.inj h]; exact hlen)
  | succ fuel ih =>
    intro stk pts out hlen h
    cases stk with
    | nil =>
      simp only [sampleLoop] at h
      rw [← Except.ok.inj h]
      exact hlen
    | cons fr stk' =>
      obtain ⟨a, b, depth⟩ := fr
      simp only [sampleLoop] at h
      split at h
      next hfull =>
        rw [← Except.ok.inj h]
        exact hlen
      next hfull =>
        push_neg at hfull
        simp only [bind, Except.bind] at h
        split at h
        · -- depth >= maxDepth: flat 2-point termination
          split at h
          next heq => exact (Except.noConfusion h)
          next pts' heq =>
            exact ih stk' pts' out (by have := addPoints_length heq; omega) h
        · -- subdivision branch
          split at h
          next heq => exact (Except.noConfusion h)
          next mid heq =>
            split at h
            next fa fb fm h1 h2 h3 =>
              split at h
              next heq2 => exact (Except.noConfusion h)
              next em heq2 =>
                split at h
                next heq3 => exact (Except.noConfusion h)
                next diff heq3 =>
                  split at h
                  · split at h
                    next heq4 => exact (Except.noConfusion h)
                    next pts' heq4 =>
                      exact ih stk' pts' out (by have := addPoints_length heq4; omega) h
                  · exact ih _ pts out hlen h
            next h1 =>
              split at h
              next heq2 => exact (Except.noConfusion h)
              next pts' heq2 =>
                exact ih stk' pts' out (by have := addPoints_length heq2; omega) h

/-- C1 (amended): for every evaluator, domain and options, the point list
returned by `AdaptiveSampler.sample` has length at most the effective
`maxPoints` (the nonzero per-call override when supplied, otherwise 10000)
PLUS ONE: the loop guard only checks the budget before an iteration, and a
final iteration entered with `maxPoints - 1` points may still add two. -/
theorem claim_C1 (fn : ℚ → Option ℚ) (domain : ℚ × ℚ) (options : SamplingOptions)
    (pts : List Pt) (h : sample fn domain options = .ok pts) :
    pts.length ≤ effMaxPoints options + 1 := by
  unfold sample at h
  cases hl : sampleLoop fn (effTolerance options) (effMaxDepth options)
      (effMaxPoints options) (effMaxOperations options - 1) [(domain.1, domain.2, 0)] [] with
  | error e => rw [hl] at h; exact (Except.noConfusion h)
  | ok pts0 =>
    rw [hl] at h
    simp only [Except.map] at h
    rw [← Except.ok.inj h, length_msort]
    exact sampleLoop_length _ _ _ _ (by simp) hl

/-- C1 counterexample: with `maxPoints = 3`, `maxDepth = 1` and the evaluator
`x ↦ x²` on `[0, 1]`, `sample` returns 4 points — one more than `maxPoints`,
refuting `sample(...).length ≤ maxPoints`. -/
theorem claim_C1_counterexample :
    sample fnSquare (0, 1) optsSmall = Except.ok ptsSquare ∧
    ptsSquare.length = 4 ∧ effMaxPoints optsSmall = 3 ∧
    ¬ ptsSquare.length ≤ effMaxPoints optsSmall :=
  ⟨by decide, by decide, by decide, by decide⟩

/-- C1 witness: the amended bound holds on a concrete run. -/
theorem claim_C1_witness :
    sample fnSquare (0, 1) optsSmall = Except.ok ptsSquare ∧
    ptsSquare.length ≤ effMaxPoints optsSmall + 1 :=
  ⟨by decide, claim_C1 fnSquare (0, 1) optsSmall ptsSquare (by decide)⟩

/-! ## Theorems: the sort invariant of the sampler (claim C3) -/

/-- C3: the output of `sample` is non-decreasing in `x` under the Precision
Core's epsilon-tolerant comparator: for every adjacent pair of returned
points, `PrecisionManager.compare(pᵢ.x, pᵢ₊₁.x) ≤ 0`. -/
theorem claim_C3 (fn : ℚ → Option ℚ) (domain : ℚ × ℚ) (options : SamplingOptions)
    (pts : List Pt) (h : sample fn domain options = .ok pts) :
    List.Chain' (fun p q => PM.compare p.x q.x ≤ 0) pts := by
  unfold sample at h
  cases hl : sampleLoop fn (effTolerance options) (effMaxDepth options)
      (effMaxPoints options) (effMaxOperations options - 1) [(domain.1, domain.2, 0)] [] with
  | error e => rw [hl] at h; exact (Except.noConfusion h)
  | ok pts0 =>
    rw [hl] at h
    simp only [Except.map] at h
    rw [← Except.ok.inj h]
    have hch := chain'_msort ptLe_total pts0
    exact hch.imp (fun p q hpq => by simpa [ptLe, decide_eq_true_iff] using hpq)

/-- C3 witness: the sort invariant on a concrete run. -/
theorem claim_C3_witness :
    List.Chain' (fun p q => PM.compare p.x q.x ≤ 0) [(⟨0, 0⟩ : Pt), ⟨1, 0⟩] :=
  claim_C3 fnZero (0, 1) optsBudget [⟨0, 0⟩, ⟨1, 0⟩] (by decide)

/-! ## Theorems: sampler robustness (claim C2) -/

theorem sampleBound_pos : 0 < sampleBound := by
  unfold sampleBound
  have := PM.maxFinite_pos
  linarith

theorem four_sampleBound : 4 * sampleBound ≤ PM.maxFinite := by
  unfold sampleBound
  linarith [PM.maxFinite_pos]

theorem sampleBound_lt_maxFinite : sampleBound < PM.maxFinite := by
  unfold sampleBound
  linarith [PM.maxFinite_pos]

theorem abs_sub_lt_maxFinite {a b : ℚ} (ha : |a| ≤ sampleBound) (hb : |b| ≤ sampleBound) :
    |a - b| < PM.maxFinite := by
  have h1 : |a - b| ≤ |a| + |b| := abs_sub _ _
  have := four_sampleBound
  have := sampleBound_pos
  linarith

theorem midpoint_bnd {a b : ℚ} (ha : |a| ≤ sampleBound) (hb : |b| ≤ sampleBound) :
    PM.midpoint a b = .ok ((a + b) / 2) ∧ |(a + b) / 2| ≤ sampleBound := by
  refine ⟨PM.midpoint_of_le four_sampleBound sampleBound_pos ha hb, ?_⟩
  rw [abs_div, abs_of_nonneg (by norm_num : (0:ℚ) ≤ 2)]
  have h1 : |a + b| ≤ |a| + |b| := abs_add _ _
  have := sampleBound_pos
  linarith

theorem one_not_near_zero : ¬ |((2 : ℕ) : ℚ) - 1| < PM.eps := by
  push_neg
  rw [show ((2 : ℕ) : ℚ) - 1 = 1 by norm_num, abs_one]
  linarith [PM.eps_lt_one]

theorem addPointsStep_zero {fn : ℚ → Option ℚ} {a b : ℚ} (pts : List Pt)
    (ha : |a| ≤ sampleBound) (hb : |b| ≤ sampleBound) :
    addPointsStep fn a b 2 pts 0 =
      .ok (pts ++ (fn a).elim [] (fun y => [⟨a, y⟩])) := by
  unfold addPointsStep
  simp only [bind, Except.bind, pure, Except.pure]
  rw [if_neg (by norm_num)]
  have hdiv : PM.div ((0 : ℕ) : ℚ) (((2 : ℕ) : ℚ) - 1) = .ok 0 := by
    unfold PM.div
    rw [if_neg one_not_near_zero]
    have h0 : ((0 : ℕ) : ℚ) / (((2 : ℕ) : ℚ) - 1) = 0 := by norm_num
    rw [h0]
    exact PM.finalize_of_lt (by rw [abs_zero]; exact PM.maxFinite_pos)
  have hmul : PM.mul 0 (b - a) = .ok 0 := by
    unfold PM.mul
    rw [zero_mul]
    exact PM.finalize_of_lt (by rw [abs_zero]; exact PM.maxFinite_pos)
  have hadd : PM.add a 0 = .ok a := by
    unfold PM.add
    rw [add_zero]
    exact PM.finalize_of_lt (lt_of_le_of_lt ha sampleBound_lt_maxFinite)
  simp only [hdiv, PM.sub_of_lt (abs_sub_lt_maxFinite hb ha), hmul, hadd]
  unfold safeEvaluate
  cases fn a <;> simp

theorem addPointsStep_one {fn : ℚ → Option ℚ} {a b : ℚ} (pts : List Pt)
    (ha : |a| ≤ sampleBound) (hb : |b| ≤ sampleBound) :
    addPointsStep fn a b 2 pts 1 =
      .ok (pts ++ (fn b).elim [] (fun y => [⟨b, y⟩])) := by
  unfold addPointsStep
  simp only [bind, Except.bind, pure, Except.pure]
  rw [if_neg (by norm_num)]
  have hdiv : PM.div ((1 : ℕ) : ℚ) (((2 : ℕ) : ℚ) - 1) = .ok 1 := by
    unfold PM.div
    rw [if_neg one_not_near_zero]
    have h0 : ((1 : ℕ) : ℚ) / (((2 : ℕ) : ℚ) - 1) = 1 := by norm_num
    rw [h0]
    exact PM.finalize_of_lt (by rw [abs_one]; exact PM.one_lt_maxFinite)
  have hmul : PM.mul 1 (b - a) = .ok (b - a) := by
    unfold PM.mul
    rw [one_mul]
    exact PM.finalize_of_lt (abs_sub_lt_maxFinite hb ha)
  have hadd : PM.add a (b - a) = .ok b := by
    unfold PM.add
    rw [show a + (b - a) = b by ring]
    exact PM.finalize_of_lt (lt_of_le_of_lt hb sampleBound_lt_maxFinite)
  simp only [hdiv, PM.sub_of_lt (abs_sub_lt_maxFinite hb ha), hmul, hadd]
  unfold safeEvaluate
  cases fn b <;> simp

theorem addPoints_two {fn : ℚ → Option ℚ} {a b : ℚ} (pts : List Pt)
    (ha : |a| ≤ sampleBound) (hb : |b| ≤ sampleBound) :
    addPoints fn a b pts 2 =
      .ok ((pts ++ (fn a).elim [] (fun y => [⟨a, y⟩]))
            ++ (fn b).elim [] (fun y => [⟨b, y⟩])) := by
  unfold addPoints
  rw [show List.range 2 = [0, 1] from rfl]
  simp only [List.foldlM, bind, Except.bind, pure, Except.pure]
  simp only [addPointsStep_zero pts ha hb,
    addPointsStep_one (pts ++ (fn a).elim [] (fun y => [⟨a, y⟩])) ha hb]

theorem sampleLoop_ok {fn : ℚ → Option ℚ} {tol : ℚ} {maxDepth maxPoints : ℕ}
    (hfn : ∀ x y, fn x = some y → |y| ≤ sampleBound) :
    ∀ (fuel : ℕ) (stk : List (ℚ × ℚ × ℕ)) (pts : List Pt),
      (∀ fr ∈ stk, |(fr : ℚ × ℚ × ℕ).1| ≤ sampleBound ∧ |fr.2.1| ≤ sampleBound) →
      (∀ p ∈ pts, |(p : Pt).x| ≤ sampleBound ∧ |p.y| ≤ sampleBound) →
      ∃ out, sampleLoop fn tol maxDepth maxPoints fuel stk pts = .ok out ∧
        ∀ p ∈ out, |p.x| ≤ sampleBound ∧ |p.y| ≤ sampleBound := by
  intro fuel
  induction fuel with
  | zero =>
    intro stk pts hstk hpts
    cases stk with
    | nil => exact ⟨pts, by simp [sampleLoop], hpts⟩
    | cons fr stk' =>
      obtain ⟨a, b, depth⟩ := fr
      refine ⟨pts, ?_, hpts⟩
      simp only [sampleLoop]
      split <;> rfl
  | succ fuel ih =>
    intro stk pts hstk hpts
    cases stk with
    | nil => exact ⟨pts, by simp [sampleLoop], hpts⟩
    | cons fr stk' =>
      obtain ⟨a, b, depth⟩ := fr
      obtain ⟨ha, hb⟩ := hstk (a, b, depth) (List.mem_cons_self _ _)
      have hstk' : ∀ fr ∈ stk', |(fr : ℚ × ℚ × ℕ).1| ≤ sampleBound ∧ |fr.2.1| ≤ sampleBound :=
        fun fr hf => hstk fr (List.mem_cons_of_mem _ hf)
      by_cases hfull : maxPoints ≤ pts.length
      · refine ⟨pts, ?_, hpts⟩
        simp only [sampleLoop]
        rw [if_pos hfull]
      · -- the "emit two endpoint samples and continue" continuation
        have hnew : ∀ p ∈ (pts ++ (fn a).elim [] (fun y => [⟨a, y⟩]))
            ++ (fn b).elim [] (fun y => [⟨b, y⟩]),
            |(p : Pt).x| ≤ sampleBound ∧ |p.y| ≤ sampleBound := by
          intro p hp
          rcases List.mem_append.mp hp with hp1 | hp1
          · rcases List.mem_append.mp hp1 with hp2 | hp2
            · exact hpts p hp2
            · cases hfa : fn a with
              | none => rw [hfa] at hp2; simp [Option.elim] at hp2
              | some y =>
                rw [hfa] at hp2
                simp [Option.elim] at hp2
                rw [hp2]
                exact ⟨ha, hfn a y hfa⟩
          · cases hfb : fn b with
            | none => rw [hfb] at hp1; simp [Option.elim] at hp1
            | some y =>
              rw [hfb] at hp1
              simp [Option.elim] at hp1
              rw [hp1]
              exact ⟨hb, hfn b y hfb⟩
        simp only [sampleLoop]
        rw [if_neg hfull]
        simp only [bind, Except.bind]
        by_cases hdep : maxDepth ≤ depth
        · rw [if_pos hdep]
          simp only [addPoints_two pts ha hb]
          exact ih stk' _ hstk' hnew
        · rw [if_neg hdep]
          simp only [(midpoint_bnd ha hb).1, safeEvaluate]
          have hmid : |(a + b) / 2| ≤ sampleBound := (midpoint_bnd ha hb).2
          rcases hfa : fn a with _ | fa <;> rcases hfb : fn b with _ | fb <;>
            rcases hfm : fn ((a + b) / 2) with _ | fm <;>
            try (simp only [addPoints_two pts ha hb]; exact ih stk' _ hstk' hnew)
          · have hfa' := hfn _ _ hfa
            have hfb' := hfn _ _ hfb
            have hfm' := hfn _ _ hfm
            simp only [(midpoint_bnd hfa' hfb').1]
            have hem' : |(fa + fb) / 2| ≤ sampleBound := (midpoint_bnd hfa' hfb').2
            simp only [PM.sub_of_lt (abs_sub_lt_maxFinite hfm' hem')]
            by_cases hlt : PM.lessThan |fm - (fa + fb) / 2| tol = true
            · rw [if_pos hlt]
              simp only [addPoints_two pts ha hb]
              exact ih stk' _ hstk' hnew
            · rw [if_neg hlt]
              exact ih ((a, (a + b) / 2, depth + 1) :: ((a + b) / 2, b, depth + 1) :: stk')
                pts (by
                  intro fr hf
                  rcases List.mem_cons.mp hf with h | h
                  · rw [h]; exact ⟨ha, hmid⟩
                  · rcases List.mem_cons.mp h with h' | h'
                    · rw [h']; exact ⟨hmid, hb⟩
                    · exact hstk' fr h') hpts

/-- C2 (amended): `sample` returns normally — and every returned point is a
finite pair bounded by `sampleBound` — for every evaluator and domain whose
endpoint magnitudes and (finite) evaluation results stay within
`sampleBound = maxFinite / 4`.  Without such a bound the claim is false: the
sampler's own error estimate can overflow and the resulting
`DeterminismError` escapes `sample` (see the counterexample). -/
theorem claim_C2 (fn : ℚ → Option ℚ) (domain : ℚ × ℚ) (options : SamplingOptions)
    (hd1 : |domain.1| ≤ sampleBound) (hd2 : |domain.2| ≤ sampleBound)
    (hfn : ∀ x y, fn x = some y → |y| ≤ sampleBound) :
    ∃ pts, sample fn domain options = .ok pts ∧
      ∀ p ∈ pts, |p.x| ≤ sampleBound ∧ |p.y| ≤ sampleBound := by
  obtain ⟨out, hout, hbnd⟩ := sampleLoop_ok hfn (effMaxOperations options - 1)
    [(domain.1, domain.2, 0)] []
    (by
      intro fr hf
      rcases List.mem_cons.mp hf with h | h
      · rw [h]; exact ⟨hd1, hd2⟩
      · simp at h)
    (by intro p hp; simp at hp)
  refine ⟨msort ptLe out, ?_, ?_⟩
  · unfold sample
    rw [hout]
    rfl
  · intro p hp
    exact hbnd p (mem_msort hp)

/-- C2 counterexample: the evaluator returning only the finite values
`±9·10³⁰⁷` on `[0, 1]` makes `subtract(f(m), midpoint(f(a), f(b)))` overflow,
and the `DeterminismError` escapes `sample` — refuting "no exception escapes
the call" for finite-valued evaluators on a finite domain. -/
theorem claim_C2_counterexample :
    sample fnOverflow (0, 1) optsBudget = Except.error DetErr.overflow ∧
    (∀ x, fnOverflow x ≠ none) := by
  constructor
  · decide
  · intro x
    unfold fnOverflow
    split <;> simp

/-- C2 witness: the amended statement at the constant-zero evaluator. -/
theorem claim_C2_witness :
    (sample fnZero (0, 1) optsBudget).isOk = true := by
  obtain ⟨pts, hok, _⟩ := claim_C2 fnZero (0, 1) optsBudget
    (by rw [show |(0 : ℚ)| = 0 from abs_zero]; exact le_of_lt sampleBound_pos)
    (by
      rw [show ((0 : ℚ), (1 : ℚ)).2 = 1 from rfl, abs_one]
      unfold sampleBound PM.maxFinite
      norm_num)
    (by
      intro x y hxy
      unfold fnZero at hxy
      rw [show y = 0 from (Option.some.inj hxy).symm, abs_zero]
      exact le_of_lt sampleBound_pos)
  rw [hok]
  rfl

/-! ## Theorems: viewport invariants (claims C4, C5, C6) -/

theorem bind_ok_elim {ε α β : Type} {e : Except ε α} {f : α → Except ε β} {r : β}
    (h : (e >>= f) = .ok r) : ∃ a, e = .ok a ∧ f a = .ok r := by
  cases e with
  | error err => simp [bind, Except.bind] at h
  | ok a => exact ⟨a, rfl, by simpa [bind, Except.bind] using h⟩

theorem fixMinX_ok {c : ViewportConstraints} {v v' : Viewport}
    (h : GraphViewport.fixMinX c v = .ok v') :
    v'.yMin = v.yMin ∧ v'.yMax = v.yMax ∧
    ((v'.xMax - v'.xMin = c.minXRange ∧
        PM.lessThan (v.xMax - v.xMin) c.minXRange = true) ∨
      (v' = v ∧ PM.lessThan (v.xMax - v.xMin) c.minXRange = false)) := by
  unfold GraphViewport.fixMinX at h
  obtain ⟨w, hw, h⟩ := bind_ok_elim h
  rw [PM.sub_ok hw] at *
  by_cases hc : PM.lessThan (v.xMax - v.xMin) c.minXRange = true
  · rw [if_pos hc] at h
    obtain ⟨cx, hcx, h⟩ := bind_ok_elim h
    obtain ⟨half, hhalf, h⟩ := bind_ok_elim h
    obtain ⟨lo, hlo, h⟩ := bind_ok_elim h
    obtain ⟨hi, hhi, h⟩ := bind_ok_elim h
    have hrec : ({ v with xMin := lo, xMax := hi } : Viewport) = v' := by
      simpa [pure, Except.pure] using h
    have hv' : v' = { v with xMin := lo, xMax := hi } := hrec.symm
    have hhalfv := PM.div_ok hhalf
    subst hhalfv
    have hlov := PM.sub_ok hlo
    subst hlov
    have hhiv := PM.add_ok hhi
    subst hhiv
    subst hv'
    refine ⟨rfl, rfl, Or.inl ⟨?_, hc⟩⟩
    simp only
    ring
  · rw [if_neg hc] at h
    have hrec : v = v' := by simpa [pure, Except.pure] using h
    have hv' : v' = v := hrec.symm
    subst hv'
    exact ⟨rfl, rfl, Or.inr ⟨rfl, Bool.not_eq_true _ ▸ eq_false_of_ne_true hc⟩⟩

theorem fixMinY_ok {c : ViewportConstraints} {v v' : Viewport}
    (h : GraphViewport.fixMinY c v = .ok v') :
    v'.xMin = v.xMin ∧ v'.xMax = v.xMax ∧
    ((v'.yMax - v'.yMin = c.minYRange ∧
        PM.lessThan (v.yMax - v.yMin) c.minYRange = true) ∨
      (v' = v ∧ PM.lessThan (v.yMax - v.yMin) c.minYRange = false)) := by
  unfold GraphViewport.fixMinY at h
  obtain ⟨w, hw, h⟩ := bind_ok_elim h
  rw [PM.sub_ok hw] at *
  by_cases hc : PM.lessThan (v.yMax - v.yMin) c.minYRange = true
  · rw [if_pos hc] at h
    obtain ⟨cy, hcy, h⟩ := bind_ok_elim h
    obtain ⟨half, hhalf, h⟩ := bind_ok_elim h
    obtain ⟨lo, hlo, h⟩ := bind_ok_elim h
    obtain ⟨hi, hhi, h⟩ := bind_ok_elim h
    have hrec : ({ v with yMin := lo, yMax := hi } : Viewport) = v' := by
      simpa [pure, Except.pure] using h
    have hv' : v' = { v with yMin := lo, yMax := hi } := hrec.symm
    have hhalfv := PM.div_ok hhalf
    subst hhalfv
    have hlov := PM.sub_ok hlo
    subst hlov
    have hhiv := PM.add_ok hhi
    subst hhiv
    subst hv'
    refine ⟨rfl, rfl, Or.inl ⟨?_, hc⟩⟩
    simp only
    ring
  · rw [if_neg hc] at h
    have hrec : v = v' := by simpa [pure, Except.pure] using h
    have hv' : v' = v := hrec.symm
    subst hv'
    exact ⟨rfl, rfl, Or.inr ⟨rfl, Bool.not_eq_true _ ▸ eq_false_of_ne_true hc⟩⟩

theorem fixMaxX_ok {c : ViewportConstraints} {v v' : Viewport}
    (h : GraphViewport.fixMaxX c v = .ok v') :
    v'.yMin = v.yMin ∧ v'.yMax = v.yMax ∧
    ((v'.xMax - v'.xMin = c.maxXRange ∧
        PM.greaterThan (v.xMax - v.xMin) c.maxXRange = true) ∨
      (v' = v ∧ PM.greaterThan (v.xMax - v.xMin) c.maxXRange = false)) := by
  unfold GraphViewport.fixMaxX at h
  obtain ⟨w, hw, h⟩ := bind_ok_elim h
  rw [PM.sub_ok hw] at *
  by_cases hc : PM.greaterThan (v.xMax - v.xMin) c.maxXRange = true
  · rw [if_pos hc] at h
    obtain ⟨cx, hcx, h⟩ := bind_ok_elim h
    obtain ⟨half, hhalf, h⟩ := bind_ok_elim h
    obtain ⟨lo, hlo, h⟩ := bind_ok_elim h
    obtain ⟨hi, hhi, h⟩ := bind_ok_elim h
    have hrec : ({ v with xMin := lo, xMax := hi } : Viewport) = v' := by
      simpa [pure, Except.pure] using h
    have hv' : v' = { v with xMin := lo, xMax := hi } := hrec.symm
    have hhalfv := PM.div_ok hhalf
    subst hhalfv
    have hlov := PM.sub_ok hlo
    subst hlov
    have hhiv := PM.add_ok hhi
    subst hhiv
    subst hv'
    refine ⟨rfl, rfl, Or.inl ⟨?_, hc⟩⟩
    simp only
    ring
  · rw [if_neg hc] at h
    have hrec : v = v' := by simpa [pure, Except.pure] using h
    have hv' : v' = v := hrec.symm
    subst hv'
    exact ⟨rfl, rfl, Or.inr ⟨rfl, Bool.not_eq_true _ ▸ eq_false_of_ne_true hc⟩⟩

theorem fixMaxY_ok {c : ViewportConstraints} {v v' : Viewport}
    (h : GraphViewport.fixMaxY c v = .ok v') :
    v'.xMin = v.xMin ∧ v'.xMax = v.xMax ∧
    ((v'.yMax - v'.yMin = c.maxYRange ∧
        PM.greaterThan (v.yMax - v.yMin) c.maxYRange = true) ∨
      (v' = v ∧ PM.greaterThan (v.yMax - v.yMin) c.maxYRange = false)) := by
  unfold GraphViewport.fixMaxY at h
  obtain ⟨w, hw, h⟩ := bind_ok_elim h
  rw [PM.sub_ok hw] at *
  by_cases hc : PM.greaterThan (v.yMax - v.yMin) c.maxYRange = true
  · rw [if_pos hc] at h
    obtain ⟨cy, hcy, h⟩ := bind_ok_elim h
    obtain ⟨half, hhalf, h⟩ := bind_ok_elim h
    obtain ⟨lo, hlo, h⟩ := bind_ok_elim h
    obtain ⟨hi, hhi, h⟩ := bind_ok_elim h
    have hrec : ({ v with yMin := lo, yMax := hi } : Viewport) = v' := by
      simpa [pure, Except.pure] using h
    have hv' : v' = { v with yMin := lo, yMax := hi } := hrec.symm
    have hhalfv := PM.div_ok hhalf
    subst hhalfv
    have hlov := PM.sub_ok hlo
    subst hlov
    have hhiv := PM.add_ok hhi
    subst hhiv
    subst hv'
    refine ⟨rfl, rfl, Or.inl ⟨?_, hc⟩⟩
    simp only
    ring
  · rw [if_neg hc] at h
    have hrec : v = v' := by simpa [pure, Except.pure] using h
    have hv' : v' = v := hrec.symm
    subst hv'
    exact ⟨rfl, rfl, Or.inr ⟨rfl, Bool.not_eq_true _ ▸ eq_false_of_ne_true hc⟩⟩

theorem enforce_good {c : ViewportConstraints} (hc : NiceCons c) {v v' : Viewport}
    (h : GraphViewport.enforceConstraints c v = .ok v') : GoodVP c v' := by
  obtain ⟨hmx, hxm, hmy, hym⟩ := hc
  have heps := PM.eps_pos
  unfold GraphViewport.enforceConstraints at h
  obtain ⟨v3, hv3, h⟩ := bind_ok_elim h
  obtain ⟨v4, hv4, h⟩ := bind_ok_elim h
  obtain ⟨v5, hv5, h⟩ := bind_ok_elim h
  obtain ⟨h3y1, h3y2, h3x⟩ := fixMinX_ok hv3
  obtain ⟨h4x1, h4x2, h4y⟩ := fixMinY_ok hv4
  obtain ⟨h5y1, h5y2, h5x⟩ := fixMaxX_ok hv5
  obtain ⟨hfx1, hfx2, hfy⟩ := fixMaxY_ok h
  have w5x : v'.xMax - v'.xMin = v5.xMax - v5.xMin := by rw [hfx1, hfx2]
  have w43x : v4.xMax - v4.xMin = v3.xMax - v3.xMin := by rw [h4x1, h4x2]
  have hxw : c.minXRange - PM.eps ≤ v'.xMax - v'.xMin ∧
      v'.xMax - v'.xMin ≤ c.maxXRange + PM.eps := by
    rcases h5x with ⟨hw5, _⟩ | ⟨hv5eq, hgt⟩
    · have heq : v'.xMax - v'.xMin = c.maxXRange := by rw [w5x, hw5]
      constructor <;> linarith
    · have w54x : v5.xMax - v5.xMin = v4.xMax - v4.xMin := by rw [hv5eq]
      have hub : v4.xMax - v4.xMin < c.maxXRange + PM.eps :=
        PM.greaterThan_eq_false.mp hgt
      rcases h3x with ⟨hw3, _⟩ | ⟨hv3eq, hlt⟩
      · have heq : v'.xMax - v'.xMin = c.minXRange := by rw [w5x, w54x, w43x, hw3]
        constructor <;> linarith
      · have hlb : c.minXRange < (v3.xMax - v3.xMin) + PM.eps := by
          rw [hv3eq]
          exact PM.lessThan_eq_false.mp hlt
        have heq : v'.xMax - v'.xMin = v3.xMax - v3.xMin := by rw [w5x, w54x, w43x]
        constructor <;> linarith
  have w54y : v5.yMax - v5.yMin = v4.yMax - v4.yMin := by rw [h5y1, h5y2]
  have hyw : c.minYRange - PM.eps ≤ v'.yMax - v'.yMin ∧
      v'.yMax - v'.yMin ≤ c.maxYRange + PM.eps := by
    rcases hfy with ⟨hwf, _⟩ | ⟨hvfeq, hgt⟩
    · rw [hwf]
      constructor <;> linarith
    · have wf5y : v'.yMax - v'.yMin = v5.yMax - v5.yMin := by rw [hvfeq]
      have hub : v5.yMax - v5.yMin < c.maxYRange + PM.eps :=
        PM.greaterThan_eq_false.mp hgt
      rcases h4y with ⟨hw4, _⟩ | ⟨hv4eq, hlt⟩
      · have heq : v'.yMax - v'.yMin = c.minYRange := by rw [wf5y, w54y, hw4]
        constructor <;> linarith
      · have hlb : c.minYRange < (v4.yMax - v4.yMin) + PM.eps := by
          rw [hv4eq]
          exact PM.lessThan_eq_false.mp hlt
        have heq : v'.yMax - v'.yMin = v4.yMax - v4.yMin := by rw [wf5y, w54y]
        constructor <;> linarith
  refine ⟨?_, ?_, hxw, hyw⟩
  · have := hxw.1
    linarith
  · have := hyw.1
    linarith

theorem saveToHistory_viewport (gv : GraphViewport) :
    (GraphViewport.saveToHistory gv).viewport = gv.viewport := rfl

theorem saveToHistory_constraints (gv : GraphViewport) :
    (GraphViewport.saveToHistory gv).constraints = gv.constraints := rfl

theorem saveToHistory_history (gv : GraphViewport) :
    (GraphViewport.saveToHistory gv).history =
      if 50 < gv.history.length + 1 then (gv.history ++ [gv.viewport]).drop 1
      else gv.history ++ [gv.viewport] := by
  show (if GraphViewport.maxHistorySize < (gv.history ++ [gv.viewport]).length
      then (gv.history ++ [gv.viewport]).drop 1 else gv.history ++ [gv.viewport]) = _
  rw [List.length_append]
  rfl

theorem saveToHistory_length {gv : GraphViewport} (h : gv.history.length ≤ 50) :
    (GraphViewport.saveToHistory gv).history.length ≤ 50 := by
  rw [saveToHistory_history]
  split
  next hlong => simp; omega
  next hshort => simp; omega

theorem saveToHistory_evict {gv : GraphViewport} (h : 50 ≤ gv.history.length) :
    (GraphViewport.saveToHistory gv).history = gv.history.drop 1 ++ [gv.viewport] := by
  rw [saveToHistory_history, if_pos (by omega)]
  rw [List.drop_append_of_le_length (by omega)]

theorem commit_good {gv : GraphViewport} {v : Viewport} {gv' : GraphViewport}
    (hc : NiceCons gv.constraints) (h : GraphViewport.commit gv v = .ok gv') :
    GoodVP gv.constraints gv'.viewport ∧ gv'.constraints = gv.constraints ∧
      (gv.history.length ≤ 50 → gv'.history.length ≤ 50) := by
  unfold GraphViewport.commit at h
  obtain ⟨v', hv', h⟩ := bind_ok_elim h
  have hrec : GraphViewport.saveToHistory { gv with viewport := v' } = gv' := by
    simpa [pure, Except.pure] using h
  have hgood := enforce_good hc hv'
  rw [← hrec, saveToHistory_viewport, saveToHistory_constraints]
  refine ⟨hgood, rfl, fun hh => saveToHistory_length hh⟩

theorem pan_good {gv : GraphViewport} {dx dy : ℚ} {gv' : GraphViewport}
    (hc : NiceCons gv.constraints) (h : GraphViewport.pan gv dx dy = .ok gv') :
    GoodVP gv.constraints gv'.viewport ∧
      (gv.history.length ≤ 50 → gv'.history.length ≤ 50) := by
  unfold GraphViewport.pan at h
  obtain ⟨x1, _, h⟩ := bind_ok_elim h
  obtain ⟨x2, _, h⟩ := bind_ok_elim h
  obtain ⟨y1, _, h⟩ := bind_ok_elim h
  obtain ⟨y2, _, h⟩ := bind_ok_elim h
  obtain ⟨hg, _, hh⟩ := commit_good hc h
  exact ⟨hg, hh⟩

theorem setViewport_good {gv : GraphViewport} {p : ViewportPatch} {gv' : GraphViewport}
    (hc : NiceCons gv.constraints) (h : GraphViewport.setViewport gv p = .ok gv') :
    GoodVP gv.constraints gv'.viewport ∧
      (gv.history.length ≤ 50 → gv'.history.length ≤ 50) := by
  unfold GraphViewport.setViewport at h
  obtain ⟨hg, _, hh⟩ := commit_good hc h
  exact ⟨hg, hh⟩

theorem fitToPoints_good {gv : GraphViewport} {pts : List Pt} {pad : ℚ}
    {gv' : GraphViewport} (hc : NiceCons gv.constraints) (hne : pts ≠ [])
    (h : GraphViewport.fitToPoints gv pts pad = .ok gv') :
    GoodVP gv.constraints gv'.viewport ∧
      (gv.history.length ≤ 50 → gv'.history.length ≤ 50) := by
  cases pts with
  | nil => exact absurd rfl hne
  | cons p rest =>
    unfold GraphViewport.fitToPoints at h
    obtain ⟨w, _, h⟩ := bind_ok_elim h
    obtain ⟨hh, _, h⟩ := bind_ok_elim h
    obtain ⟨pw, _, h⟩ := bind_ok_elim h
    obtain ⟨ph, _, h⟩ := bind_ok_elim h
    obtain ⟨x1, _, h⟩ := bind_ok_elim h
    obtain ⟨x2, _, h⟩ := bind_ok_elim h
    obtain ⟨y1, _, h⟩ := bind_ok_elim h
    obtain ⟨y2, _, h⟩ := bind_ok_elim h
    obtain ⟨hg, _, hhist⟩ := commit_good hc h
    exact ⟨hg, hhist⟩

theorem zoom_good {gv : GraphViewport} {factor : ℚ} {center : Option (ℚ × ℚ)}
    {gv' : GraphViewport} (hc : NiceCons gv.constraints)
    (hpre : GoodVP gv.constraints gv.viewport)
    (h : GraphViewport.zoom gv factor center = .ok gv') :
    GoodVP gv.constraints gv'.viewport ∧
      (gv.history.length ≤ 50 → gv'.history.length ≤ 50) := by
  unfold GraphViewport.zoom at h
  obtain ⟨zc, hzc, h⟩ := bind_ok_elim h
  obtain ⟨w, hw, h⟩ := bind_ok_elim h
  obtain ⟨nw, hnw, h⟩ := bind_ok_elim h
  obtain ⟨hh0, hhh, h⟩ := bind_ok_elim h
  obtain ⟨nh, hnh, h⟩ := bind_ok_elim h
  split at h
  · have hgv : gv = gv' := by simpa [pure, Except.pure] using h
    rw [← hgv]
    exact ⟨hpre, fun x => x⟩
  · split at h
    · have hgv : gv = gv' := by simpa [pure, Except.pure] using h
      rw [← hgv]
      exact ⟨hpre, fun x => x⟩
    · obtain ⟨zl, hzl, h⟩ := bind_ok_elim h
      split at h
      · have hgv : gv = gv' := by simpa [pure, Except.pure] using h
        rw [← hgv]
        exact ⟨hpre, fun x => x⟩
      · obtain ⟨hw2, _, h⟩ := bind_ok_elim h
        obtain ⟨hh2, _, h⟩ := bind_ok_elim h
        obtain ⟨x1, _, h⟩ := bind_ok_elim h
        obtain ⟨x2, _, h⟩ := bind_ok_elim h
        obtain ⟨y1, _, h⟩ := bind_ok_elim h
        obtain ⟨y2, _, h⟩ := bind_ok_elim h
        obtain ⟨hg, _, hhist⟩ := commit_good hc h
        exact ⟨hg, hhist⟩

theorem undo_length {gv : GraphViewport} (h : gv.history.length ≤ 50) :
    (GraphViewport.undo gv).1.history.length ≤ 50 := by
  unfold GraphViewport.undo
  split
  · exact h
  · split
    · apply saveToHistory_length
      simp only
      rw [List.length_dropLast, List.length_dropLast]
      omega
    · simp only
      rw [List.length_dropLast]
      omega

/-- C4 (amended): the constructor performs NO constraint enforcement — it
stores the merged initial viewport verbatim (so `xMin < xMax` can fail right
after construction, see the counterexample).  For well-formed constraints
(each minimum range above epsilon and at most the maximum; the defaults
qualify), every `pan`, `setViewport`, `fitToPoints` (on nonempty input) and
`zoom` call that returns leaves `xMin < xMax` and `yMin < yMax`, with width
and height within the configured `[minRange, maxRange]` bounds up to the
comparison epsilon (the epsilon-tolerant guards allow a violation smaller
than `PM.eps`); `zoom` additionally preserves the invariant when it silently
no-ops.  `reset` restores the in-bounds default window under the default
constraints.  Every operation keeps the history at no more than 50 entries,
and a full history evicts the oldest entry first. -/
theorem claim_C4 :
    (∀ init cons,
      (GraphViewport.create init cons).viewport = mergeViewport defaultViewport init ∧
      (GraphViewport.create init cons).history = [mergeViewport defaultViewport init]) ∧
    (∀ gv dx dy gv', NiceCons gv.constraints →
      GraphViewport.pan gv dx dy = .ok gv' →
      GoodVP gv.constraints gv'.viewport ∧
        (gv.history.length ≤ 50 → gv'.history.length ≤ 50)) ∧
    (∀ gv p gv', NiceCons gv.constraints →
      GraphViewport.setViewport gv p = .ok gv' →
      GoodVP gv.constraints gv'.viewport ∧
        (gv.history.length ≤ 50 → gv'.history.length ≤ 50)) ∧
    (∀ gv pts pad gv', NiceCons gv.constraints → pts ≠ [] →
      GraphViewport.fitToPoints gv pts pad = .ok gv' →
      GoodVP gv.constraints gv'.viewport ∧
        (gv.history.length ≤ 50 → gv'.history.length ≤ 50)) ∧
    (∀ gv factor center gv', NiceCons gv.constraints →
      GoodVP gv.constraints gv.viewport →
      GraphViewport.zoom gv factor center = .ok gv' →
      GoodVP gv.constraints gv'.viewport ∧
        (gv.history.length ≤ 50 → gv'.history.length ≤ 50)) ∧
    (∀ gv, gv.constraints = defaultConstraints →
      GoodVP gv.constraints (GraphViewport.reset gv).viewport) ∧
    (∀ gv, gv.history.length ≤ 50 →
      (GraphViewport.reset gv).history.length ≤ 50 ∧
      (GraphViewport.undo gv).1.history.length ≤ 50) ∧
    (∀ gv, 50 ≤ gv.history.length →
      (GraphViewport.saveToHistory gv).history = gv.history.drop 1 ++ [gv.viewport]) ∧
    NiceCons defaultConstraints := by
  refine ⟨?_, ?_, ?_, ?_, ?_, ?_, ?_, ?_, ?_⟩
  · intro init cons
    refine ⟨rfl, ?_⟩
    unfold GraphViewport.create
    rw [saveToHistory_history]
    simp
  · intro gv dx dy gv' hc h
    exact pan_good hc h
  · intro gv p gv' hc h
    exact setViewport_good hc h
  · intro gv pts pad gv' hc hne h
    exact fitToPoints_good hc hne h
  · intro gv factor center gv' hc hpre h
    exact zoom_good hc hpre h
  · intro gv hc
    rw [hc]
    unfold GraphViewport.reset
    rw [saveToHistory_viewport]
    unfold GoodVP goodRange defaultViewport defaultConstraints
    norm_num [PM.eps]
  · intro gv hh
    exact ⟨saveToHistory_length hh, undo_length hh⟩
  · intro gv hh
    exact saveToHistory_evict hh
  · unfold NiceCons defaultConstraints
    norm_num [PM.eps]

/-- C4 counterexample: constructing with `{xMin: 5, xMax: -5}` yields a state
violating `xMin < xMax` — the constructor never calls `enforceConstraints`. -/
theorem claim_C4_counterexample :
    ¬ (GraphViewport.create invertedPatch {}).viewport.xMin <
       (GraphViewport.create invertedPatch {}).viewport.xMax := by decide

/-- C4 witness: the amended invariant after a concrete `pan`. -/
theorem claim_C4_witness :
    GoodVP defaultConstraints ⟨-9, 11, -9, 11, 1⟩ := by
  have h := claim_C4.2.1 freshGV 1 1
    ⟨⟨-9, 11, -9, 11, 1⟩, defaultConstraints,
      [⟨-10, 10, -10, 10, 1⟩, ⟨-9, 11, -9, 11, 1⟩]⟩
    (by unfold NiceCons; decide) (by decide)
  exact h.1

/-! ## Theorems: zoom guard behaviour (claim C5) -/

/-- C5 (amended): `zoom(factor, center?)` silently no-ops — returning the
state with every field unchanged and no history entry added — exactly when
one of its EPSILON-TOLERANT guards fires: the new width/height is below the
minimum range or above the maximum range by at least the comparison epsilon
(per `PrecisionManager.lessThan`/`greaterThan`), or the implied zoom level
epsilon-tolerantly exceeds `maxZoomLevel`.  A resulting width that is
outside the configured limits by less than epsilon does NOT trigger the
guard: the call still mutates and records history (see counterexample). -/
theorem claim_C5 (gv : GraphViewport) (factor : ℚ) (center : Option (ℚ × ℚ))
    (zc : ℚ × ℚ) (w hgt nw nh : ℚ)
    (hzc : GraphViewport.zoomCenter gv center = .ok zc)
    (hw : PM.sub gv.viewport.xMax gv.viewport.xMin = .ok w)
    (hnw : PM.div w factor = .ok nw)
    (hh : PM.sub gv.viewport.yMax gv.viewport.yMin = .ok hgt)
    (hnh : PM.div hgt factor = .ok nh)
    (hguard :
      PM.lessThan nw gv.constraints.minXRange = true ∨
      PM.lessThan nh gv.constraints.minYRange = true ∨
      PM.greaterThan nw gv.constraints.maxXRange = true ∨
      PM.greaterThan nh gv.constraints.maxYRange = true ∨
      (∃ zl, PM.div 20 nw = .ok zl ∧
        PM.greaterThan zl gv.constraints.maxZoomLevel = true)) :
    GraphViewport.zoom gv factor center = .ok gv := by
  unfold GraphViewport.zoom
  simp only [hzc, hw, hnw, hh, hnh, bind, Except.bind]
  by_cases h1 : (PM.lessThan nw gv.constraints.minXRange ||
      PM.lessThan nh gv.constraints.minYRange) = true
  · rw [if_pos h1]
    rfl
  · rw [if_neg h1]
    by_cases h2 : (PM.greaterThan nw gv.constraints.maxXRange ||
        PM.greaterThan nh gv.constraints.maxYRange) = true
    · rw [if_pos h2]
      rfl
    · rw [if_neg h2]
      rw [Bool.or_eq_true, not_or] at h1 h2
      rcases hguard with hg | hg | hg | hg | ⟨zl, hzl, hgt2⟩
      · exact absurd hg h1.1
      · exact absurd hg h1.2
      · exact absurd hg h2.1
      · exact absurd hg h2.2
      · simp only [hzl]
        rw [if_pos hgt2]
        rfl

/-- C5 counterexample: a viewport whose width is half an epsilon below
`minXRange`; zooming with factor 1 about `(100, 5)` has a resulting width
outside the configured limits, yet the call mutates the viewport and records
a history entry. -/
theorem claim_C5_counterexample :
    slimWidth < defaultConstraints.minXRange ∧
    PM.sub slimGV.viewport.xMax slimGV.viewport.xMin = .ok slimWidth ∧
    PM.div slimWidth 1 = .ok slimWidth ∧
    (GraphViewport.zoom slimGV 1 (some (100, 5))).map
      (fun gv => gv.viewport.xMin) = .ok (100 - slimWidth / 2) ∧
    slimGV.viewport.xMin = 0 ∧
    ¬ (100 - slimWidth / 2 : ℚ) = 0 ∧
    (GraphViewport.zoom slimGV 1 (some (100, 5))).map
      (fun gv => gv.history.length) = .ok 2 ∧
    slimGV.history.length = 1 :=
  ⟨by decide, by decide, by decide, by decide, by decide, by decide, by decide, by decide⟩

/-- C5 witness: a zoom far past `maxXRange` is a silent no-op. -/
theorem claim_C5_witness :
    GraphViewport.zoom freshGV (1 / 1000000000000) none = Except.ok freshGV :=
  claim_C5 freshGV (1 / 1000000000000) none (0, 0) 20 20 20000000000000 20000000000000
    (by decide) (by decide) (by decide) (by decide) (by decide)
    (Or.inr (Or.inr (Or.inl (by decide))))

/-! ## Theorems: undo semantics (claim C6) -/

/-- C6: `undo()` pops the two most recent history entries and restores (and
re-records) the one beneath the current state: after
`reset(); pan(1,1); pan(2,2); undo()` on a fresh viewport the current state
is exactly the state after `pan(1,1)`; and `undo()` returns `false` without
mutating whenever the history has at most one entry. -/
theorem claim_C6 :
    (∀ gv : GraphViewport, gv.history.length ≤ 1 →
      GraphViewport.undo gv = (gv, false)) ∧
    (GraphViewport.pan (GraphViewport.reset freshGV) 1 1).map
      (fun gv => gv.viewport) = .ok ⟨-9, 11, -9, 11, 1⟩ ∧
    (do
      let a ← GraphViewport.pan (GraphViewport.reset freshGV) 1 1
      let b ← GraphViewport.pan a 2 2
      pure (GraphViewport.undo b) : Except DetErr (GraphViewport × Bool)) =
      Except.ok
        (⟨⟨-9, 11, -9, 11, 1⟩, defaultConstraints,
          [⟨-10, 10, -10, 10, 1⟩, ⟨-10, 10, -10, 10, 1⟩, ⟨-9, 11, -9, 11, 1⟩]⟩,
         true) := by
  refine ⟨?_, by decide, by decide⟩
  intro gv hle
  unfold GraphViewport.undo
  rw [if_pos hle]

/-- C6 witness: `undo` on a freshly constructed viewport (single history
entry) reports `false` and leaves the state unchanged. -/
theorem claim_C6_witness : GraphViewport.undo freshGV = (freshGV, false) :=
  claim_C6.1 freshGV (by decide)

/-! ## Theorems: circuit breaker (claim C7) -/

/-- C7: under the budget, `execute` runs the protected call and returns its
outcome (a failure also trips the breaker); once the incremented counter
exceeds `maxOperations`, the protected call is never consulted (the result
is the same for every `fn`) and the supplied fallback's result is returned,
or a `CircuitBreakerError` carrying the breaker name, the budget and the
actual post-increment operation count is thrown; the breaker stays tripped
across further `execute` calls until `reset()` clears it; a freshly
constructed breaker starts at zero, untripped. -/
theorem claim_C7 {ε α : Type} :
    (∀ (b : CircuitBreaker) (fn : Except ε α) (fb : Option (Except ε α)),
      b.operationCount < b.maxOperations →
      (b.execute fn fb).1 = fn.mapError CBOutcome.user ∧
      (b.execute fn fb).2.operationCount = b.operationCount + 1 ∧
      (b.execute fn fb).2.isTripped = (b.isTripped || !fn.isOk)) ∧
    (∀ (b : CircuitBreaker) (fn fn' : Except ε α) (fb : Option (Except ε α)),
      b.maxOperations ≤ b.operationCount →
      b.execute fn fb = b.execute fn' fb ∧
      (b.execute fn fb).1 = (match fb with
        | some g => g.mapError CBOutcome.user
        | none => .error (.breakerTripped b.name b.maxOperations (b.operationCount + 1))) ∧
      (b.execute fn fb).2.isTripped = true) ∧
    (∀ (b : CircuitBreaker) (fn : Except ε α) (fb : Option (Except ε α)),
      b.isTripped = true → (b.execute fn fb).2.isTripped = true) ∧
    (∀ b : CircuitBreaker, b.reset.operationCount = 0 ∧ b.reset.isTripped = false) ∧
    (∀ (name : String) (n : ℕ),
      (CircuitBreaker.make name n).operationCount = 0 ∧
      (CircuitBreaker.make name n).isTripped = false ∧
      (CircuitBreaker.make name n).maxOperations = n) := by
  refine ⟨?_, ?_, ?_, fun b => ⟨rfl, rfl⟩, fun name n => ⟨rfl, rfl, rfl⟩⟩
  · intro b fn fb hlt
    unfold CircuitBreaker.execute
    rw [if_neg (by omega)]
    cases fn <;> simp [Except.mapError, Except.isOk, Except.toBool]
  · intro b fn fn' fb hge
    have hformula : ∀ g : Except ε α, CircuitBreaker.execute b g fb =
        ((match fb with
          | some fbk => fbk.mapError CBOutcome.user
          | none => .error (.breakerTripped b.name b.maxOperations (b.operationCount + 1))),
         { b with operationCount := b.operationCount + 1, isTripped := true }) := by
      intro g
      unfold CircuitBreaker.execute
      rw [if_pos (by omega)]
      cases fb <;> rfl
    exact ⟨by rw [hformula fn, hformula fn'], by rw [hformula fn], by rw [hformula fn]⟩
  · intro b fn fb htr
    unfold CircuitBreaker.execute
    by_cases hov : b.maxOperations < b.operationCount + 1
    · rw [if_pos hov]
      cases fb <;> rfl
    · rw [if_neg hov]
      cases fn <;> simp [htr]

/-- C7 witness: a budget-1 breaker runs the first call and returns the
breaker error with name, budget and actual count on the second. -/
theorem claim_C7_witness :
    ((CircuitBreaker.make "sampler" 1).execute (Except.ok (7 : ℕ))
        (none : Option (Except ℕ ℕ))).1 = Except.ok 7 ∧
    ((CircuitBreaker.mk "sampler" 1 1 false).execute (Except.ok (7 : ℕ))
        (none : Option (Except ℕ ℕ))).1 =
      Except.error (CBOutcome.breakerTripped "sampler" 1 2) ∧
    ((CircuitBreaker.mk "sampler" 1 1 false).execute (Except.ok (7 : ℕ))
        (none : Option (Except ℕ ℕ))) =
      ((CircuitBreaker.mk "sampler" 1 1 false).execute (Except.error (0 : ℕ))
        (none : Option (Except ℕ ℕ))) := by
  refine ⟨?_, ?_, ?_⟩
  · rw [(claim_C7.1 (CircuitBreaker.make "sampler" 1) (Except.ok 7) none (by decide)).1]
    rfl
  · rw [(claim_C7.2.1 (CircuitBreaker.mk "sampler" 1 1 false) (Except.ok 7) (Except.ok 7)
      none (by decide)).2.1]
  · exact (claim_C7.2.1 (CircuitBreaker.mk "sampler" 1 1 false) (Except.ok 7)
      (Except.error 0) none (by decide)).1

/-! ## Theorems: linear transform round trip (claim C8) -/

/-- C8: for every linear transform whose scales are at least the configured
epsilon in magnitude and whose parameters and input point are bounded by
`2^500` (a generous "reasonable domain": any such forward image stays far
below the overflow threshold), `inverse(forward(p))` returns and reproduces
`p` componentwise within `1e-13` (in the exact rational model the round trip
is exact); in particular the spec's example
`{scaleX: 2.5, scaleY: 1.5, offsetX: 100, offsetY: -50}` at
`{x: 42.123, y: 37.456}` round-trips exactly. -/
theorem claim_C8 :
    (∀ (s : ScaleTransform) (p : Pt),
      PM.eps ≤ |s.scaleX| → PM.eps ≤ |s.scaleY| →
      |s.scaleX| ≤ 3273390607896141870013189696827599152216642046043064789483291368096133796404674554883270092325904157150886684127560071009217256545885393053328527589376 →
      |s.scaleY| ≤ 3273390607896141870013189696827599152216642046043064789483291368096133796404674554883270092325904157150886684127560071009217256545885393053328527589376 →
      |s.offsetX| ≤ 3273390607896141870013189696827599152216642046043064789483291368096133796404674554883270092325904157150886684127560071009217256545885393053328527589376 →
      |s.offsetY| ≤ 3273390607896141870013189696827599152216642046043064789483291368096133796404674554883270092325904157150886684127560071009217256545885393053328527589376 →
      |p.x| ≤ 3273390607896141870013189696827599152216642046043064789483291368096133796404674554883270092325904157150886684127560071009217256545885393053328527589376 →
      |p.y| ≤ 3273390607896141870013189696827599152216642046043064789483291368096133796404674554883270092325904157150886684127560071009217256545885393053328527589376 →
      ∃ q, linearForward s p = .ok q ∧
        ∃ r, linearInverse s q = .ok r ∧
          |r.x - p.x| ≤ 1 / 10 ^ 13 ∧ |r.y - p.y| ≤ 1 / 10 ^ 13) ∧
    (linearForward exampleScale examplePt = .ok ⟨82123 / 400, 773 / 125⟩ ∧
      linearInverse exampleScale ⟨82123 / 400, 773 / 125⟩ = .ok examplePt) := by
  refine ⟨?_, by decide, by decide⟩
  intro s p hex hey hsx hsy hox hoy hpx hpy
  set L : ℚ := 3273390607896141870013189696827599152216642046043064789483291368096133796404674554883270092325904157150886684127560071009217256545885393053328527589376 with hL
  have hLL : L * L + L < PM.maxFinite := by rw [hL]; unfold PM.maxFinite; norm_num
  have hLpos : (0 : ℚ) < L := by rw [hL]; norm_num
  have hLltM : L < PM.maxFinite := by nlinarith
  have hmx : |s.scaleX * p.x| < PM.maxFinite := by
    rw [abs_mul]
    calc |s.scaleX| * |p.x| ≤ L * L := by
          apply mul_le_mul hsx hpx (abs_nonneg _) (le_of_lt hLpos)
    _ < PM.maxFinite := by linarith
  have hax : |s.scaleX * p.x + s.offsetX| < PM.maxFinite := by
    calc |s.scaleX * p.x + s.offsetX| ≤ |s.scaleX * p.x| + |s.offsetX| := abs_add _ _
    _ ≤ |s.scaleX| * |p.x| + L := by rw [abs_mul]; linarith
    _ ≤ L * L + L := by
        have := mul_le_mul hsx hpx (abs_nonneg _) (le_of_lt hLpos)
        linarith
    _ < PM.maxFinite := hLL
  have hmy : |s.scaleY * p.y| < PM.maxFinite := by
    rw [abs_mul]
    calc |s.scaleY| * |p.y| ≤ L * L := by
          apply mul_le_mul hsy hpy (abs_nonneg _) (le_of_lt hLpos)
    _ < PM.maxFinite := by linarith
  have hay : |s.scaleY * p.y + s.offsetY| < PM.maxFinite := by
    calc |s.scaleY * p.y + s.offsetY| ≤ |s.scaleY * p.y| + |s.offsetY| := abs_add _ _
    _ ≤ |s.scaleY| * |p.y| + L := by rw [abs_mul]; linarith
    _ ≤ L * L + L := by
        have := mul_le_mul hsy hpy (abs_nonneg _) (le_of_lt hLpos)
        linarith
    _ < PM.maxFinite := hLL
  have hxne : s.scaleX ≠ 0 := by
    intro h0
    rw [h0, abs_zero] at hex
    linarith [PM.eps_pos]
  have hyne : s.scaleY ≠ 0 := by
    intro h0
    rw [h0, abs_zero] at hey
    linarith [PM.eps_pos]
  have hfwd : linearForward s p = .ok ⟨s.scaleX * p.x + s.offsetX, s.scaleY * p.y + s.offsetY⟩ := by
    unfold linearForward
    simp only [bind, Except.bind, pure, Except.pure,
      PM.mul_of_lt hmx, PM.add_of_lt hax, PM.mul_of_lt hmy, PM.add_of_lt hay]
  have hdx : PM.sub (s.scaleX * p.x + s.offsetX) s.offsetX = .ok (s.scaleX * p.x) := by
    unfold PM.sub
    rw [show s.scaleX * p.x + s.offsetX - s.offsetX = s.scaleX * p.x by ring]
    exact PM.finalize_of_lt hmx
  have hdivx : PM.div (s.scaleX * p.x) s.scaleX = .ok p.x := by
    unfold PM.div
    rw [if_neg (not_lt.mpr hex), mul_div_cancel_left₀ p.x hxne]
    exact PM.finalize_of_lt (lt_of_le_of_lt hpx hLltM)
  have hdy : PM.sub (s.scaleY * p.y + s.offsetY) s.offsetY = .ok (s.scaleY * p.y) := by
    unfold PM.sub
    rw [show s.scaleY * p.y + s.offsetY - s.offsetY = s.scaleY * p.y by ring]
    exact PM.finalize_of_lt hmy
  have hdivy : PM.div (s.scaleY * p.y) s.scaleY = .ok p.y := by
    unfold PM.div
    rw [if_neg (not_lt.mpr hey), mul_div_cancel_left₀ p.y hyne]
    exact PM.finalize_of_lt (lt_of_le_of_lt hpy hLltM)
  refine ⟨⟨s.scaleX * p.x + s.offsetX, s.scaleY * p.y + s.offsetY⟩, hfwd, p, ?_, ?_, ?_⟩
  · unfold linearInverse
    simp only [bind, Except.bind, pure, Except.pure, hdx, hdivx, hdy, hdivy]
  · rw [sub_self, abs_zero]
    norm_num
  · rw [sub_self, abs_zero]
    norm_num

/-- C8 witness: the round trip succeeds at the spec's example transform and
point (with all magnitude hypotheses discharged concretely). -/
theorem claim_C8_witness : (linearForward exampleScale examplePt).isOk = true := by
  obtain ⟨q, hq, -⟩ := claim_C8.1 exampleScale examplePt (by decide) (by decide)
    (by decide) (by decide) (by decide) (by decide) (by decide) (by decide)
  rw [hq]
  rfl


/-! ## Theorems: marching squares (claims C9, C10) -/

theorem effNat_pos {o : Option ℕ} {d : ℕ} (hd : 1 ≤ d) : 1 ≤ effNat o d := by
  cases o with
  | none => simpa [effNat] using hd
  | some n =>
    by_cases hn : n = 0
    · simpa [effNat, hn] using hd
    · simp only [effNat]
      rw [if_neg hn]
      omega

theorem msLoop_length {fn : ℚ → ℚ → Option ℚ} {xMin yMin dx dy iso : ℚ}
    {maxSegments : ℕ} :
    ∀ (cells : List (ℕ × ℕ)) (segs : List (List Pt)),
      segs.length < maxSegments →
      (MS.msLoop fn xMin yMin dx dy iso maxSegments cells segs).length ≤ maxSegments := by
  intro cells
  induction cells with
  | nil => intro segs h; simpa [MS.msLoop] using le_of_lt h
  | cons c rest ih =>
    intro segs h
    obtain ⟨j, i⟩ := c
    simp only [MS.msLoop]
    split
    · split
      next hfull =>
        simp only [List.length_append, List.length_singleton]
        omega
      next hroom =>
        apply ih
        simp only [List.length_append, List.length_singleton] at hroom ⊢
        omega
    · exact ih segs h

theorem msLoop_two {fn : ℚ → ℚ → Option ℚ} {xMin yMin dx dy iso : ℚ}
    {maxSegments : ℕ} :
    ∀ (cells : List (ℕ × ℕ)) (segs : List (List Pt)),
      (∀ q ∈ segs, 2 ≤ q.length) →
      ∀ poly ∈ MS.msLoop fn xMin yMin dx dy iso maxSegments cells segs,
        2 ≤ poly.length := by
  intro cells
  induction cells with
  | nil =>
    intro segs hs poly hp
    exact hs poly (by simpa [MS.msLoop] using hp)
  | cons c rest ih =>
    intro segs hs poly hp
    obtain ⟨j, i⟩ := c
    simp only [MS.msLoop] at hp
    split at hp
    next hlen =>
      have hsegs' : ∀ q ∈ segs ++ [MS.cellPoly fn xMin yMin dx dy iso i j],
          2 ≤ q.length := by
        intro q hq
        rcases List.mem_append.mp hq with h | h
        · exact hs q h
        · rw [List.mem_singleton.mp h]
          exact hlen
      split at hp
      · exact hsegs' poly hp
      · exact ih _ hsegs' poly hp
    next => exact ih segs hs poly hp

theorem msLoop_mem {fn : ℚ → ℚ → Option ℚ} {xMin yMin dx dy iso : ℚ}
    {maxSegments : ℕ} {P : List Pt → Prop} :
    ∀ (cells : List (ℕ × ℕ)) (segs : List (List Pt)),
      (∀ poly ∈ segs, P poly) →
      (∀ c ∈ cells, P (MS.cellPoly fn xMin yMin dx dy iso c.2 c.1)) →
      ∀ poly ∈ MS.msLoop fn xMin yMin dx dy iso maxSegments cells segs, P poly := by
  intro cells
  induction cells with
  | nil =>
    intro segs hs _ poly hp
    exact hs poly (by simpa [MS.msLoop] using hp)
  | cons c rest ih =>
    intro segs hs hc poly hp
    obtain ⟨j, i⟩ := c
    simp only [MS.msLoop] at hp
    have hcell : P (MS.cellPoly fn xMin yMin dx dy iso i j) :=
      hc (j, i) (List.mem_cons_self _ _)
    have hrest : ∀ c ∈ rest, P (MS.cellPoly fn xMin yMin dx dy iso c.2 c.1) :=
      fun c hcm => hc c (List.mem_cons_of_mem _ hcm)
    have hsegs' : ∀ poly ∈ segs ++ [MS.cellPoly fn xMin yMin dx dy iso i j], P poly := by
      intro q hq
      rcases List.mem_append.mp hq with h | h
      · exact hs q h
      · rw [List.mem_singleton.mp h]
        exact hcell
    split at hp
    · split at hp
      · exact hsegs' poly hp
      · exact ih _ hsegs' hrest poly hp
    · exact ih segs hs hrest poly hp

/-- C9: `marchingSquares` returns at most the effective `maxSegments`
polylines (the nonzero override when supplied, otherwise 10000; the cell loop
returns as soon as that count is reached), and every returned polyline has at
least 2 points. -/
theorem claim_C9 (fn : ℚ → ℚ → Option ℚ) (xMin xMax yMin yMax : ℚ)
    (options : MarchingOptions) :
    (MS.marchingSquares fn xMin xMax yMin yMax options).length ≤ effMaxSegments options ∧
    ∀ poly ∈ MS.marchingSquares fn xMin xMax yMin yMax options, 2 ≤ poly.length := by
  constructor
  · apply msLoop_length
    simp only [List.length_nil]
    exact effNat_pos (by norm_num)
  · intro poly hp
    simp only [MS.marchingSquares] at hp
    exact msLoop_two _ _ (by intro q hq; simp at hq) poly hp

theorem edgeTable_straddle :
    ∀ (b0 b1 b2 b3 : Bool), ∀ e ∈ MS.edgeTable.getD (idxOf b0 b1 b2 b3) [],
      (edgeBits b0 b1 b2 b3 e).1 ≠ (edgeBits b0 b1 b2 b3 e).2 := by decide

theorem t_unit {iso w1 w2 : ℚ}
    (hne : (decide (iso < w1)) ≠ (decide (iso < w2))) :
    0 ≤ (iso - w1) / (w2 - w1) ∧ (iso - w1) / (w2 - w1) ≤ 1 := by
  by_cases h1 : iso < w1 <;> by_cases h2 : iso < w2
  · exact absurd (by rw [decide_eq_true h1, decide_eq_true h2]) hne
  · have h2' : w2 ≤ iso := not_lt.mp h2
    have hd : 0 < w1 - w2 := by linarith
    have heq : (iso - w1) / (w2 - w1) = (w1 - iso) / (w1 - w2) := by
      rw [show w2 - w1 = -(w1 - w2) by ring, show iso - w1 = -(w1 - iso) by ring,
        neg_div_neg_eq]
    rw [heq]
    exact ⟨div_nonneg (by linarith) (by linarith), (div_le_one hd).mpr (by linarith)⟩
  · have h1' : w1 ≤ iso := not_lt.mp h1
    have hd : 0 < w2 - w1 := by linarith
    exact ⟨div_nonneg (by linarith) (by linarith), (div_le_one hd).mpr (by linarith)⟩
  · exact absurd (by rw [decide_eq_false h1, decide_eq_false h2]) hne

theorem convex_bound {lo hi x1 x2 t : ℚ} (ht0 : 0 ≤ t) (ht1 : t ≤ 1)
    (h1 : lo ≤ x1) (h2 : x1 ≤ hi) (h3 : lo ≤ x2) (h4 : x2 ≤ hi) :
    lo ≤ x1 + t * (x2 - x1) ∧ x1 + t * (x2 - x1) ≤ hi := by
  constructor <;> nlinarith

theorem gridCoord_mem {lo hi : ℚ} {k n : ℕ} (hk : k ≤ n) (hn : 0 < n)
    (hlh : lo ≤ hi) :
    lo ≤ lo + k * ((hi - lo) / n) ∧ lo + k * ((hi - lo) / n) ≤ hi := by
  have hn' : (0 : ℚ) < n := by exact_mod_cast hn
  have hkn : (k : ℚ) ≤ n := by exact_mod_cast hk
  have hk0 : (0 : ℚ) ≤ k := by positivity
  have hdiv : (0 : ℚ) ≤ (hi - lo) / n := div_nonneg (by linarith) (le_of_lt hn')
  constructor
  · nlinarith
  · have hstep : (k : ℚ) * ((hi - lo) / n) ≤ n * ((hi - lo) / n) :=
      mul_le_mul_of_nonneg_right hkn hdiv
    have hcancel : (n : ℚ) * ((hi - lo) / n) = hi - lo := by
      field_simp
    linarith

theorem cellList_mem {rows cols : ℕ} {c : ℕ × ℕ} (hc : c ∈ MS.cellList rows cols) :
    c.1 < rows ∧ c.2 < cols := by
  obtain ⟨j, i⟩ := c
  simp only [MS.cellList, List.mem_flatMap, List.mem_map, List.mem_range] at hc
  obtain ⟨j', hj', i', hi', heq⟩ := hc
  cases heq
  exact ⟨hj', hi'⟩

theorem sampleEdge_bound (fn : ℚ → ℚ → Option ℚ) (xMin yMin dx dy iso : ℚ)
    (i j e : ℕ) (p : Pt)
    (hstr :
      (edgeBits (MS.cornerBit (MS.gridVal fn xMin yMin dx dy i j) iso)
        (MS.cornerBit (MS.gridVal fn xMin yMin dx dy (i + 1) j) iso)
        (MS.cornerBit (MS.gridVal fn xMin yMin dx dy (i + 1) (j + 1)) iso)
        (MS.cornerBit (MS.gridVal fn xMin yMin dx dy i (j + 1)) iso) e).1 ≠
      (edgeBits (MS.cornerBit (MS.gridVal fn xMin yMin dx dy i j) iso)
        (MS.cornerBit (MS.gridVal fn xMin yMin dx dy (i + 1) j) iso)
        (MS.cornerBit (MS.gridVal fn xMin yMin dx dy (i + 1) (j + 1)) iso)
        (MS.cornerBit (MS.gridVal fn xMin yMin dx dy i (j + 1)) iso) e).2)
    (hse : MS.sampleEdge fn xMin yMin dx dy iso i j e = some p) :
    ∃ t a b c d : ℚ, 0 ≤ t ∧ t ≤ 1 ∧
      (a = xMin + i * dx ∨ a = xMin + (i + 1) * dx) ∧
      (b = xMin + i * dx ∨ b = xMin + (i + 1) * dx) ∧
      (c = yMin + j * dy ∨ c = yMin + (j + 1) * dy) ∧
      (d = yMin + j * dy ∨ d = yMin + (j + 1) * dy) ∧
      p = ⟨a + t * (b - a), c + t * (d - c)⟩ := by
  by_cases he0 : e = 0
  · have hb : MS.cornerBit (MS.gridVal fn xMin yMin dx dy i j) iso
        ≠ MS.cornerBit (MS.gridVal fn xMin yMin dx dy i (j + 1)) iso := by
      simpa [edgeBits, he0] using hstr
    simp only [MS.sampleEdge, if_pos he0] at hse
    rcases hv1 : MS.gridVal fn xMin yMin dx dy i j with _ | w1
    · simp [hv1] at hse
    rcases hv2 : MS.gridVal fn xMin yMin dx dy i (j + 1) with _ | w2
    · simp [hv1, hv2] at hse
    rw [hv1, hv2] at hb
    have hne : decide (iso < w1) ≠ decide (iso < w2) := hb
    have ht := t_unit hne
    simp only [hv1, hv2] at hse
    by_cases hw : w2 - w1 = 0
    · rw [if_pos hw] at hse
      exact Option.noConfusion hse
    rw [if_neg hw] at hse
    have hpe := (Option.some.inj hse).symm
    exact ⟨(iso - w1) / (w2 - w1), xMin + i * dx, xMin + i * dx,
      yMin + j * dy, yMin + (j + 1) * dy, ht.1, ht.2,
      Or.inl rfl, Or.inl rfl, Or.inl rfl, Or.inr rfl, hpe⟩
  by_cases he1 : e = 1
  · have hb : MS.cornerBit (MS.gridVal fn xMin yMin dx dy i (j + 1)) iso
        ≠ MS.cornerBit (MS.gridVal fn xMin yMin dx dy (i + 1) (j + 1)) iso := by
      simpa [edgeBits, he1] using hstr
    simp only [MS.sampleEdge, if_neg he0, if_pos he1] at hse
    rcases hv1 : MS.gridVal fn xMin yMin dx dy i (j + 1) with _ | w1
    · simp [hv1] at hse
    rcases hv2 : MS.gridVal fn xMin yMin dx dy (i + 1) (j + 1) with _ | w2
    · simp [hv1, hv2] at hse
    rw [hv1, hv2] at hb
    have hne : decide (iso < w1) ≠ decide (iso < w2) := hb
    have ht := t_unit hne
    simp only [hv1, hv2] at hse
    by_cases hw : w2 - w1 = 0
    · rw [if_pos hw] at hse
      exact Option.noConfusion hse
    rw [if_neg hw] at hse
    have hpe := (Option.some.inj hse).symm
    exact ⟨(iso - w1) / (w2 - w1), xMin + i * dx, xMin + (i + 1) * dx,
      yMin + (j + 1) * dy, yMin + (j + 1) * dy, ht.1, ht.2,
      Or.inl rfl, Or.inr rfl, Or.inr rfl, Or.inr rfl, hpe⟩
  by_cases he2 : e = 2
  · have hb : MS.cornerBit (MS.gridVal fn xMin yMin dx dy (i + 1) (j + 1)) iso
        ≠ MS.cornerBit (MS.gridVal fn xMin yMin dx dy (i + 1) j) iso := by
      simpa [edgeBits, he2] using hstr
    simp only [MS.sampleEdge, if_neg he0, if_neg he1, if_pos he2] at hse
    rcases hv1 : MS.gridVal fn xMin yMin dx dy (i + 1) (j + 1) with _ | w1
    · simp [hv1] at hse
    rcases hv2 : MS.gridVal fn xMin yMin dx dy (i + 1) j with _ | w2
    · simp [hv1, hv2] at hse
    rw [hv1, hv2] at hb
    have hne : decide (iso < w1) ≠ decide (iso < w2) := hb
    have ht := t_unit hne
    simp only [hv1, hv2] at hse
    by_cases hw : w2 - w1 = 0
    · rw [if_pos hw] at hse
      exact Option.noConfusion hse
    rw [if_neg hw] at hse
    have hpe := (Option.some.inj hse).symm
    exact ⟨(iso - w1) / (w2 - w1), xMin + (i + 1) * dx, xMin + (i + 1) * dx,
      yMin + (j + 1) * dy, yMin + j * dy, ht.1, ht.2,
      Or.inr rfl, Or.inr rfl, Or.inr rfl, Or.inl rfl, hpe⟩
  · have hb : MS.cornerBit (MS.gridVal fn xMin yMin dx dy (i + 1) j) iso
        ≠ MS.cornerBit (MS.gridVal fn xMin yMin dx dy i j) iso := by
      simpa [edgeBits, if_neg he0, if_neg he1, if_neg he2] using hstr
    simp only [MS.sampleEdge, if_neg he0, if_neg he1, if_neg he2] at hse
    rcases hv1 : MS.gridVal fn xMin yMin dx dy (i + 1) j with _ | w1
    · simp [hv1] at hse
    rcases hv2 : MS.gridVal fn xMin yMin dx dy i j with _ | w2
    · simp [hv1, hv2] at hse
    rw [hv1, hv2] at hb
    have hne : decide (iso < w1) ≠ decide (iso < w2) := hb
    have ht := t_unit hne
    simp only [hv1, hv2] at hse
    by_cases hw : w2 - w1 = 0
    · rw [if_pos hw] at hse
      exact Option.noConfusion hse
    rw [if_neg hw] at hse
    have hpe := (Option.some.inj hse).symm
    exact ⟨(iso - w1) / (w2 - w1), xMin + (i + 1) * dx, xMin + i * dx,
      yMin + j * dy, yMin + j * dy, ht.1, ht.2,
      Or.inr rfl, Or.inl rfl, Or.inl rfl, Or.inl rfl, hpe⟩

theorem cellPoly_subset (fn : ℚ → ℚ → Option ℚ) (xMin xMax yMin yMax iso : ℚ)
    (cols rows : ℕ) (hc : 0 < cols) (hr : 0 < rows)
    (hx : xMin ≤ xMax) (hy : yMin ≤ yMax)
    (i j : ℕ) (hi : i < cols) (hj : j < rows) :
    ∀ p ∈ MS.cellPoly fn xMin yMin ((xMax - xMin) / cols) ((yMax - yMin) / rows)
        iso i j,
      xMin ≤ p.x ∧ p.x ≤ xMax ∧ yMin ≤ p.y ∧ p.y ≤ yMax := by
  intro p hp
  simp only [MS.cellPoly] at hp
  obtain ⟨e, he, hse⟩ := List.mem_filterMap.mp hp
  have hidx : MS.cellIndex fn xMin yMin ((xMax - xMin) / cols) ((yMax - yMin) / rows)
      iso i j =
      idxOf
        (MS.cornerBit (MS.gridVal fn xMin yMin ((xMax - xMin) / cols)
          ((yMax - yMin) / rows) i j) iso)
        (MS.cornerBit (MS.gridVal fn xMin yMin ((xMax - xMin) / cols)
          ((yMax - yMin) / rows) (i + 1) j) iso)
        (MS.cornerBit (MS.gridVal fn xMin yMin ((xMax - xMin) / cols)
          ((yMax - yMin) / rows) (i + 1) (j + 1)) iso)
        (MS.cornerBit (MS.gridVal fn xMin yMin ((xMax - xMin) / cols)
          ((yMax - yMin) / rows) i (j + 1)) iso) := rfl
  rw [hidx] at he
  have hstr := edgeTable_straddle _ _ _ _ e he
  obtain ⟨t, a, b, c, d, ht0, ht1, ha, hb, hcc, hd, hpe⟩ :=
    sampleEdge_bound fn xMin yMin ((xMax - xMin) / cols) ((yMax - yMin) / rows)
      iso i j e p hstr hse
  have hx0 := gridCoord_mem (Nat.le_of_lt hi) hc hx
  have hx1 := gridCoord_mem (show i + 1 ≤ cols by omega) hc hx
  have hy0 := gridCoord_mem (Nat.le_of_lt hj) hr hy
  have hy1 := gridCoord_mem (show j + 1 ≤ rows by omega) hr hy
  push_cast at hx1 hy1
  have hA : xMin ≤ a ∧ a ≤ xMax := by
    rcases ha with rfl | rfl
    exacts [hx0, hx1]
  have hB : xMin ≤ b ∧ b ≤ xMax := by
    rcases hb with rfl | rfl
    exacts [hx0, hx1]
  have hC : yMin ≤ c ∧ c ≤ yMax := by
    rcases hcc with rfl | rfl
    exacts [hy0, hy1]
  have hD : yMin ≤ d ∧ d ≤ yMax := by
    rcases hd with rfl | rfl
    exacts [hy0, hy1]
  subst hpe
  exact ⟨(convex_bound ht0 ht1 hA.1 hA.2 hB.1 hB.2).1,
    (convex_bound ht0 ht1 hA.1 hA.2 hB.1 hB.2).2,
    (convex_bound ht0 ht1 hC.1 hC.2 hD.1 hD.2).1,
    (convex_bound ht0 ht1 hC.1 hC.2 hD.1 hD.2).2⟩

/-- C10: for every evaluator and every rectangle with `xMin ≤ xMax` and
`yMin ≤ yMax`, every point of every polyline returned by `marchingSquares`
lies within the closed rectangle: each emitted point is the linear
interpolation of a crossed cell edge with interpolation parameter in
`[0, 1]`. -/
theorem claim_C10 (fn : ℚ → ℚ → Option ℚ) (xMin xMax yMin yMax : ℚ)
    (options : MarchingOptions) (hx : xMin ≤ xMax) (hy : yMin ≤ yMax) :
    ∀ poly ∈ MS.marchingSquares fn xMin xMax yMin yMax options,
      ∀ p ∈ poly, xMin ≤ p.x ∧ p.x ≤ xMax ∧ yMin ≤ p.y ∧ p.y ≤ yMax := by
  intro poly hp p hpp
  simp only [MS.marchingSquares] at hp
  refine @msLoop_mem fn xMin yMin ((xMax - xMin) / (effCols options : ℚ))
    ((yMax - yMin) / (effRows options : ℚ)) (effIso options)
    (effMaxSegments options)
    (fun poly => ∀ q ∈ poly, xMin ≤ q.x ∧ q.x ≤ xMax ∧ yMin ≤ q.y ∧ q.y ≤ yMax)
    (MS.cellList (effRows options) (effCols options)) [] ?_ ?_ poly hp p hpp
  · intro q hq
    simp at hq
  · intro cell hcm
    have hji := cellList_mem hcm
    exact cellPoly_subset fn xMin xMax yMin yMax (effIso options)
      (effCols options) (effRows options) (effNat_pos (by norm_num))
      (effNat_pos (by norm_num)) hx hy cell.2 cell.1 hji.2 hji.1

theorem claim_C10_witness :
    ((MS.marchingSquares fnCircle (-5) 5 (-5) 5 msOptsSmall).all
      (fun poly => poly.all (fun p =>
        decide (-5 ≤ p.x) && decide (p.x ≤ 5) &&
        decide (-5 ≤ p.y) && decide (p.y ≤ 5)))) = true := by
  have h := claim_C10 fnCircle (-5) 5 (-5) 5 msOptsSmall (by norm_num) (by norm_num)
  simp only [List.all_eq_true]
  intro poly hpoly p hp
  have hb := h poly hpoly p hp
  rw [decide_eq_true hb.1, decide_eq_true hb.2.1, decide_eq_true hb.2.2.1,
    decide_eq_true hb.2.2.2]
  rfl
